import Mathlib

/-!
Verification of the core data model of the YASK stencil kernel:
the named-coordinate `Tuple` class (`src/common/tuple.hpp`) and the
folded-vector helpers (`src/realv.hpp`), embedded shallowly.

A `Tuple` is an ordered sequence of (dimension-name, value) entries plus an
orientation flag `firstInner`.  The C++ class keeps a side map from interned
name pointers to value slots; under the class invariant (dimension names are
unique within one tuple) that map is exactly association-list lookup on the
sequence, which is how we model it.  The value type `T` is instantiated in
the kernel with signed machine integers; we model it as `Int` (idealized,
unbounded), and model the `size_t` casts inside `layout` explicitly as
reduction modulo 2^64.  C++ `assert` failures (contract violations) are
modelled by `Except.error`.
-/

namespace Yask

/-- One dimension: an (interned) name together with its value.
Models the `_q` entries of `Tuple<T>` (`Scalar<T>` name/value pairs). -/
structure Tuple where
  q : List (String × Int)
  firstInner : Bool
deriving Repr, DecidableEq

/-- `Tuple::size()` / `getNumDims()`: number of dimensions. -/
def Tuple.size (t : Tuple) : Nat := t.q.length

/-- Names of the dimensions, in order. -/
def Tuple.dimNames (t : Tuple) : List String := t.q.map Prod.fst

/-- Values of the dimensions, in order. -/
def Tuple.vals (t : Tuple) : List Int := t.q.map Prod.snd

/-- Association-list lookup by dimension name. -/
def lookupL (q : List (String × Int)) (dim : String) : Option Int :=
  (q.find? (fun p => p.1 == dim)).map Prod.snd

/-- `Tuple::lookup(dim)`: value for a name, or none.  The C++ consults the
name->slot map; under the unique-names invariant this is the first (only)
entry with that name. -/
def Tuple.lookup (t : Tuple) (dim : String) : Option Int :=
  lookupL t.q dim

/-- `Tuple::getVal(dim)`: lookup that asserts existence.  We only apply it
where the C++ has established presence, so the default is never observed. -/
def Tuple.getVal (t : Tuple) (dim : String) : Int :=
  (t.lookup dim).getD 0

/-- `Tuple::setVal(dim, val)`: overwrite the value of an existing dimension
in place (the C++ asserts existence; on an absent name this is a no-op). -/
def Tuple.setVal (t : Tuple) (dim : String) (val : Int) : Tuple :=
  { q := t.q.map (fun p => if p.1 = dim then (p.1, val) else p),
    firstInner := t.firstInner }

/-- `Tuple::addDimBack(dim, val)`: overwrite in place if the name exists,
else append at the back. -/
def Tuple.addDimBack (t : Tuple) (dim : String) (val : Int) : Tuple :=
  if (t.lookup dim).isSome then t.setVal dim val
  else { q := t.q ++ [(dim, val)], firstInner := t.firstInner }

/-- `Tuple::areDimsSame(rhs)`: same dimension count and every name of `this`
present in `rhs` (order-independent). -/
def Tuple.areDimsSame (t rhs : Tuple) : Bool :=
  t.size == rhs.size && t.q.all (fun p => (rhs.lookup p.1).isSome)

/-- `Tuple::operator==`: dims are the same and every value matches by name. -/
def Tuple.tupleEq (t rhs : Tuple) : Bool :=
  t.areDimsSame rhs && t.q.all (fun p => rhs.getVal p.1 == p.2)

/-- `Tuple::makeDimStr()` with the default separator: the comma-joined
dimension-name string. -/
def Tuple.makeDimStr (t : Tuple) : String :=
  String.intercalate ", " t.dimNames

/-- Value-comparison loop of `Tuple::operator<` (dims already known same):
walk `this`'s entries in order, first differing value decides. -/
def ltValsAux : List (String × Int) → Tuple → Bool
  | [], _ => false
  | p :: rest, rhs =>
    let rval := rhs.getVal p.1
    if p.2 < rval then true
    else if p.2 > rval then false
    else ltValsAux rest rhs

/-- `Tuple::operator<`: fewer dims sorts first; equal counts with matching
dim sets compare values in `this`'s order; otherwise the comma-joined
dim-name strings compare lexicographically. -/
def Tuple.tupleLt (t rhs : Tuple) : Bool :=
  if t.size < rhs.size then true
  else if rhs.size < t.size then false
  else if t.areDimsSame rhs then ltValsAux t.q rhs
  else t.makeDimStr < rhs.makeDimStr

/-- `Tuple::operator!=`. -/
def Tuple.tupleNe (t rhs : Tuple) : Bool := !(t.tupleEq rhs)

/-- `Tuple::operator<=`. -/
def Tuple.tupleLe (t rhs : Tuple) : Bool := t.tupleEq rhs || t.tupleLt rhs

/-- `Tuple::operator>`. -/
def Tuple.tupleGt (t rhs : Tuple) : Bool := !(t.tupleLe rhs)

/-- `Tuple::operator>=`. -/
def Tuple.tupleGe (t rhs : Tuple) : Bool := !(t.tupleLt rhs)

/-- `Tuple::reduce(reducer)`: `result` starts at 0 but is replaced by the
first value, so an empty tuple folds to 0 and a non-empty one folds the
values left-to-right starting from the first. -/
def Tuple.reduce (t : Tuple) (reducer : Int → Int → Int) : Int :=
  match t.q with
  | [] => 0
  | p :: rest => (rest.map Prod.snd).foldl reducer p.2

/-- `Tuple::sum()`. -/
def Tuple.sum (t : Tuple) : Int :=
  t.reduce (fun lhs rhs => lhs + rhs)

/-- `Tuple::product()`: special-cases the empty tuple (empty name map) to 1. -/
def Tuple.product (t : Tuple) : Int :=
  if t.q.isEmpty then 1 else t.reduce (fun lhs rhs => lhs * rhs)

/-- `Tuple::max()`. -/
def Tuple.maxVal (t : Tuple) : Int :=
  t.reduce (fun lhs rhs => max lhs rhs)

/-- `Tuple::min()`. -/
def Tuple.minVal (t : Tuple) : Int :=
  t.reduce (fun lhs rhs => min lhs rhs)

/-- C++ `size_t(v)` conversion of a signed value: reduction modulo `2^64`. -/
def toSizeT (v : Int) : Nat := (v % (2 : Int) ^ 64).toNat

/-- Loop body of `Tuple::layout`: walk the dimensions in the given order,
accumulating `idx += offset * prevSize; prevSize *= dsize`.  Each C++
`assert` that can fail becomes an `Except.error`:
`assert(offset < dsize)`, `assert(idx < size_t(product()))`,
`assert(prevSize <= size_t(product()))`.  A missing offset contributes 0. -/
def layoutLoop (offsets : Tuple) (prodSz : Nat) :
    List (String × Int) → Nat → Nat → Except String Nat
  | [], idx, _prevSize => .ok idx
  | (dim, v) :: rest, idx, prevSize =>
    let dsize := toSizeT v
    let offset := match offsets.lookup dim with
      | some ov => toSizeT ov
      | none => 0
    if offset < dsize then
      let idx' := idx + offset * prevSize
      if idx' < prodSz then
        let prevSize' := prevSize * dsize
        if prevSize' ≤ prodSz then
          layoutLoop offsets prodSz rest idx' prevSize'
        else .error "prevSize exceeds product"
      else .error "index exceeds product"
    else .error "offset out of range"

/-- `Tuple::layout(offsets, strictRhs)`: treats `this` as the extents of an
n-D box and maps `offsets` to a flat index.  If `strictRhs`, the offsets must
have exactly `this`'s dimension set (`assert(areDimsSame(offsets))`).  With
`_firstInner` true dimension 0 is visited first (fastest-varying), otherwise
the last dimension is. -/
def Tuple.layout (t : Tuple) (offsets : Tuple) (strictRhs : Bool) : Except String Nat :=
  if strictRhs && !(t.areDimsSame offsets) then .error "dims mismatch"
  else
    let dims := if t.firstInner then t.q else t.q.reverse
    layoutLoop offsets (toSizeT t.product) dims 0 1

/-- `Tuple::makeUnionWith(rhs)`: copy `this`, then append each of `rhs`'s
dimensions that is absent (with `rhs`'s value). -/
def Tuple.makeUnionWith (t rhs : Tuple) : Tuple :=
  rhs.q.foldl
    (fun u p => if (u.lookup p.1).isSome then u else u.addDimBack p.1 p.2) t

/-- `Tuple::removeDim(dim)`: build a fresh default-constructed tuple
(`Tuple newt;`, so `_firstInner` is the default `true`) and re-add every
dimension whose name differs from `dim`. -/
def Tuple.removeDim (t : Tuple) (dim : String) : Tuple :=
  t.q.foldl
    (fun newt p => if p.1 ≠ dim then newt.addDimBack p.1 p.2 else newt)
    { q := [], firstInner := true }

/-- `Tuple::mapElements(func, rhs)`: the C++ copies `this` into `newt` and
then iterates `for (auto i : newt._q)` — each `i` is a by-value copy of the
element, so the write `tval = func(tval, rhs)` lands in the copy and is
discarded.  `newt` is returned with all of its values unchanged. -/
def Tuple.mapElements (t : Tuple) (func : Int → Int → Int) (rhs : Int) : Tuple :=
  { q := t.q.map (fun i => let _copy := (i.1, func i.2 rhs); i),
    firstInner := t.firstInner }

/-- Scalar-broadcast `Tuple::addElements(T rhs)`. -/
def Tuple.addElements (t : Tuple) (rhs : Int) : Tuple :=
  t.mapElements (fun lhs rhs => lhs + rhs) rhs

/-- Scalar-broadcast `Tuple::multElements(T rhs)`. -/
def Tuple.multElements (t : Tuple) (rhs : Int) : Tuple :=
  t.mapElements (fun lhs rhs => lhs * rhs) rhs

/-- Scalar-broadcast `Tuple::maxElements(T rhs)`. -/
def Tuple.maxElements (t : Tuple) (rhs : Int) : Tuple :=
  t.mapElements (fun lhs rhs => max lhs rhs) rhs

/-- Scalar-broadcast `Tuple::minElements(T rhs)`. -/
def Tuple.minElements (t : Tuple) (rhs : Int) : Tuple :=
  t.mapElements (fun lhs rhs => min lhs rhs) rhs

/-- The iteration space of `for (T i = 0; i < dsize; i++)`. -/
def intRange (dsize : Int) : List Int :=
  (List.range dsize.toNat).map (fun k : Nat => (k : Int))

/-- Recursive worker of `Tuple::visitAllPoints`: the head of `dims` is the
dimension of the current (outermost remaining) loop; each iteration sets that
dimension's value in the argument tuple `tp` and recurses; past the last
dimension the visitor fires, which we record by emitting `tp`. -/
def visitLoop : List (String × Int) → Tuple → List Tuple
  | [], tp => [tp]
  | (dim, dsize) :: rest, tp =>
    (intRange dsize).flatMap (fun i => visitLoop rest (tp.setVal dim i))

/-- `Tuple::visitAllPoints(visitor)`: the list of visited points in visit
order.  A 0-D tuple visits once.  With `_firstInner` true the recursion
starts at the last dimension (outermost loop) and steps down, so dimension 0
is the inner loop; otherwise it starts at dimension 0 and steps up. -/
def Tuple.visitAllPoints (t : Tuple) : List Tuple :=
  if t.q.isEmpty then [t]
  else if t.firstInner then visitLoop t.q.reverse t
  else visitLoop t.q t

/-- Portable (`NO_INTRINSICS`) backend of `real_vec_align<count>(res, a, b)`:
lanes `0 ≤ i < VLEN-count` of the result take `b[i+count]`, lanes
`VLEN-count ≤ i < VLEN` take `a[i+count-VLEN]`.  A lane array is modelled as
a function from lane index to value. -/
def real_vec_align {α : Type} (VLEN count : ℕ) (a b : ℕ → α) : ℕ → α :=
  fun i => if i < VLEN - count then b (i + count) else a (i + count - VLEN)

/-- The observable content of a `VLEN`-lane vector: its lanes in order. -/
def laneList {α : Type} (n : ℕ) (f : ℕ → α) : List α :=
  (List.range n).map f

/-- Scalar `within_tolerance(val, ref, epsilon)`: compares
`fabs(val - ref) < epsilon`, where `epsilon` is first replaced by
`fabs(ref * epsilon)` when `fabs(ref) > 1`.  Real arithmetic is modelled
exactly over `ℚ`. -/
def within_tolerance (val ref epsilon : ℚ) : Bool :=
  let adiff := |val - ref|
  let eps' := if |ref| > 1 then |ref * epsilon| else epsilon
  decide (adiff < eps')

/-- Vector `within_tolerance`: the per-lane test on every lane `j < VLEN`,
aggregated with logical AND (the C++ returns false at the first failing
lane). -/
def within_tolerance_vec (VLEN : ℕ) (val ref epsilon : ℕ → ℚ) : Bool :=
  (List.range VLEN).all (fun j => within_tolerance (val j) (ref j) (epsilon j))

instance : DecidableEq (Except String Nat) := fun a b =>
  match a, b with
  | .ok x, .ok y =>
    decidable_of_iff (x = y) ⟨fun h => h ▸ rfl, fun h => Except.ok.inj h⟩
  | .error x, .error y =>
    decidable_of_iff (x = y) ⟨fun h => h ▸ rfl, fun h => Except.error.inj h⟩
  | .ok _, .error _ => isFalse (fun h => Except.noConfusion h)
  | .error _, .ok _ => isFalse (fun h => Except.noConfusion h)

/-- The extents tuple {x:4, y:3} with firstInner = true. -/
def c1Ext : Tuple := { q := [("x", 4), ("y", 3)], firstInner := true }

/-- An offsets tuple {x, y}. -/
def c1Off (x y : Int) : Tuple := { q := [("x", x), ("y", y)], firstInner := true }

/-- The full Cartesian product of offsets of the 4x3 box. -/
def c1Box : List Tuple :=
  (List.range 4).flatMap (fun x => (List.range 3).map (fun y => c1Off x y))

/-- The extents tuple {t:1, x:8, y:8, z:8} with firstInner = false. -/
def c1Ext2 : Tuple :=
  { q := [("t", 1), ("x", 8), ("y", 8), ("z", 8)], firstInner := false }

/-- An offsets tuple {t, x, y, z}. -/
def c1Off4 (t x y z : Int) : Tuple :=
  { q := [("t", t), ("x", x), ("y", y), ("z", z)], firstInner := true }

/-- Concrete lane arrays for the C6 witness. -/
def c6a : ℕ → Int := fun i => 100 + i

/-- Concrete lane arrays for the C6 witness. -/
def c6b : ℕ → Int := fun i => 200 + i

/-- Constant-zero lanes for the C7 witness. -/
def c7z : ℕ → ℚ := fun _ => 0

/-- A concrete source tuple (with the non-default orientation) for C10. -/
def c10t : Tuple := { q := [("x", 1), ("y", 2)], firstInner := false }

/-- Concrete tuples for the C8 witness. -/
def c8t : Tuple := { q := [("x", 1), ("y", 2)], firstInner := true }

/-- Concrete tuples for the C8 witness. -/
def c8r : Tuple := { q := [("y", 9), ("z", 3)], firstInner := true }

/-- Lexicographic comparison of a list of value pairs, mirroring the value
loop of `operator<`: first pair with distinct components decides. -/
def pairLex : List (Int × Int) → Bool
  | [] => false
  | (x, y) :: rest => if x < y then true else if y < x then false else pairLex rest

/-- Concrete tuples for the C5 witness. -/
def c5a : Tuple := { q := [("x", 1)], firstInner := true }

/-- Concrete tuples for the C5 witness. -/
def c5c : Tuple := { q := [("x", 1), ("y", 2)], firstInner := true }

/-- Concrete tuples for the C5 witness. -/
def c5d : Tuple := { q := [("y", 3), ("x", 0)], firstInner := true }

/-- Concrete tuples for the C5 witness. -/
def c5e : Tuple := { q := [("x", 1), ("z", 2)], firstInner := true }

/-- Concrete tuples for the C5 witness. -/
def c5f : Tuple := { q := [("x", 5), ("y", 0)], firstInner := true }

/-- Product of the extents of a list of (extent, offset) pairs. -/
def prodP (l : List (Nat × Nat)) : Nat := (l.map Prod.fst).prod

/-- Mixed-radix value of a list of (extent, offset) pairs, innermost
(fastest-varying) pair first: `valInner ((e,d) :: rest) = d + e * valInner rest`. -/
def valInner : List (Nat × Nat) → Nat
  | [] => 0
  | (e, d) :: rest => d + e * valInner rest

/-- `layoutLoop` with the per-dimension extent and looked-up offset already
paired: the pure accumulation `idx += offset*prevSize; prevSize *= dsize`
with the three fallible asserts. -/
def layoutPairs (prodSz : Nat) : List (Nat × Nat) → Nat → Nat → Except String Nat
  | [], idx, _prevSize => .ok idx
  | (dsize, offset) :: rest, idx, prevSize =>
    if offset < dsize then
      let idx' := idx + offset * prevSize
      if idx' < prodSz then
        let prevSize' := prevSize * dsize
        if prevSize' ≤ prodSz then layoutPairs prodSz rest idx' prevSize'
        else .error "prevSize exceeds product"
      else .error "index exceeds product"
    else .error "offset out of range"

/-- All points of the box with the given extents (outermost loop first), in
visit order: the head extent varies slowest. -/
def enumRev : List Nat → List (List Nat)
  | [] => [[]]
  | e :: rest => (List.range e).flatMap (fun i => (enumRev rest).map (fun p => i :: p))

/-- Position of a digit list within `enumRev es`:
the head (outermost) digit is worth the product of the remaining extents. -/
def radixRev : List Nat → List Nat → Nat
  | _ :: es, d :: ds => d * es.prod + radixRev es ds
  | _, _ => 0

/-- The dimension-processing order of `visitAllPoints`: outermost loop
first.  With `_firstInner` true the outermost loop is the last dimension. -/
def vdims (t : Tuple) : List (String × Int) :=
  if t.firstInner then t.q.reverse else t.q

/-- Assign the digit list to the given dimensions (by position) in `tp`. -/
def assignDigits (tp : Tuple) (ds : List (String × Int)) (digits : List Nat) : Tuple :=
  (List.zip ds digits).foldl (fun acc pr => acc.setVal pr.1.1 ((pr.2 : Int))) tp

/-- The extents of the visit-order dimensions, as Nats. -/
def esOf (t : Tuple) : List Nat := (vdims t).map (fun p => p.2.toNat)

/-- A concrete extents tuple for the C2 witness. -/
def c2t : Tuple := { q := [("x", 2), ("y", 3)], firstInner := true }

/-- The offsets tuple that non-strict `layout` effectively uses: exactly
`this`'s dimensions, with the caller's offset where supplied and 0 where
missing (extra caller dimensions are dropped). -/
def fillOffsets (t o : Tuple) : Tuple :=
  { q := t.q.map (fun p => (p.1, (o.lookup p.1).getD 0)), firstInner := true }

/-- The extents tuple {x:4, y:3} for the C4 witness. -/
def c4t : Tuple := { q := [("x", 4), ("y", 3)], firstInner := true }

/-- Offsets {x:4, y:0} (x out of range) for the C4 witness. -/
def c4o : Tuple := { q := [("x", 4), ("y", 0)], firstInner := true }

/-- Offsets {y:1, z:7}: a missing and an extra dimension for C4. -/
def c4o2 : Tuple := { q := [("y", 1), ("z", 7)], firstInner := true }

/-! ### Basic lemmas about the embedding -/

theorem lookupL_eq_none_of_not_mem {q : List (String × Int)} {d : String}
    (h : d ∉ q.map Prod.fst) : lookupL q d = none := by
  unfold lookupL
  rw [List.find?_eq_none.mpr]
  · rfl
  · intro p hp
    simp only [beq_iff_eq]
    intro hpd
    exact h (by simpa [hpd] using List.mem_map_of_mem Prod.fst hp)

theorem lookupL_isSome_of_mem {q : List (String × Int)} {d : String}
    (h : d ∈ q.map Prod.fst) : (lookupL q d).isSome := by
  unfold lookupL
  rcases List.mem_map.mp h with ⟨p, hp, hpd⟩
  have : ∃ x ∈ q, (fun p => p.1 == d) x = true := ⟨p, hp, by simp [hpd]⟩
  rcases List.find?_isSome.mpr this with h'
  simp only [Option.isSome_map']
  exact h'

theorem lookupL_mem_of_isSome {q : List (String × Int)} {d : String}
    (h : (lookupL q d).isSome) : d ∈ q.map Prod.fst := by
  by_contra hd
  rw [lookupL_eq_none_of_not_mem hd] at h
  simp at h

theorem lookup_eq_none_of_not_mem {t : Tuple} {d : String}
    (h : d ∉ t.dimNames) : t.lookup d = none :=
  lookupL_eq_none_of_not_mem h

theorem lookup_isSome_of_mem {t : Tuple} {d : String}
    (h : d ∈ t.dimNames) : (t.lookup d).isSome :=
  lookupL_isSome_of_mem h

theorem mem_of_lookup_isSome {t : Tuple} {d : String}
    (h : (t.lookup d).isSome) : d ∈ t.dimNames :=
  lookupL_mem_of_isSome h

theorem lookupL_cons_ne {p : String × Int} {q : List (String × Int)} {d : String}
    (h : p.1 ≠ d) : lookupL (p :: q) d = lookupL q d := by
  unfold lookupL
  rw [List.find?_cons_of_neg]
  simpa using h

theorem lookupL_cons_self {p : String × Int} {q : List (String × Int)} :
    lookupL (p :: q) p.1 = some p.2 := by
  unfold lookupL
  rw [List.find?_cons_of_pos]
  · rfl
  · simp

theorem lookupL_append {q₁ q₂ : List (String × Int)} {d : String} :
    lookupL (q₁ ++ q₂) d
      = match lookupL q₁ d with
        | some v => some v
        | none => lookupL q₂ d := by
  induction q₁ with
  | nil => simp [lookupL]
  | cons p rest ih =>
    by_cases hp : p.1 = d
    · subst hp
      rw [List.cons_append]
      rw [show lookupL ((p :: (rest ++ q₂))) p.1 = some p.2 from lookupL_cons_self,
        show lookupL (p :: rest) p.1 = some p.2 from lookupL_cons_self]
    · rw [List.cons_append, lookupL_cons_ne hp, lookupL_cons_ne hp, ih]

/-! ### C9: reductions of an empty tuple -/

/-- C9: for a tuple with zero dimensions, `max()` and `min()` (like `sum()`)
return 0, the fold's initial accumulator value, with no error signalled,
while `product()` alone special-cases the empty tuple to return 1. -/
theorem c9_empty_reductions (t : Tuple) (h : t.size = 0) :
    t.maxVal = 0 ∧ t.minVal = 0 ∧ t.sum = 0 ∧ t.product = 1 := by
  have hq : t.q = [] := List.length_eq_zero.mp h
  refine ⟨?_, ?_, ?_, ?_⟩ <;>
    simp [Tuple.maxVal, Tuple.minVal, Tuple.sum, Tuple.product, Tuple.reduce, hq]

/-- Witness for C9 at the concrete empty tuple. -/
theorem c9_empty_reductions_witness :
    (Tuple.mk [] true).size = 0 ∧
      ((Tuple.mk [] true).maxVal = 0 ∧ (Tuple.mk [] true).minVal = 0 ∧
        (Tuple.mk [] true).sum = 0 ∧ (Tuple.mk [] true).product = 1) :=
  ⟨rfl, c9_empty_reductions (Tuple.mk [] true) rfl⟩

/-! ### C3: the scalar-broadcast elementwise operations -/

/-- C3 (code bug): `mapElements` iterates over by-value copies of the
entries, so the scalar-broadcast `addElements(c)`, `multElements(c)`,
`maxElements(c)` and `minElements(c)` return `this` with every value
unchanged, not the binary function applied — contradicting the function's
own comment ("Apply func to each element, creating a new Tuple"). -/
theorem c3_scalar_broadcast_noop :
    (∀ (t : Tuple) (func : Int → Int → Int) (c : Int), t.mapElements func c = t)
  ∧ (Tuple.mk [("x", 1)] true).addElements 2 = Tuple.mk [("x", 1)] true
  ∧ (Tuple.mk [("x", 1)] true).addElements 2 ≠ Tuple.mk [("x", 3)] true
  ∧ (Tuple.mk [("x", 2)] true).multElements 3 = Tuple.mk [("x", 2)] true
  ∧ (Tuple.mk [("x", 2)] true).multElements 3 ≠ Tuple.mk [("x", 6)] true
  ∧ (Tuple.mk [("x", 1)] true).maxElements 5 = Tuple.mk [("x", 1)] true
  ∧ (Tuple.mk [("x", 1)] true).maxElements 5 ≠ Tuple.mk [("x", 5)] true
  ∧ (Tuple.mk [("x", 5)] true).minElements 2 = Tuple.mk [("x", 5)] true
  ∧ (Tuple.mk [("x", 5)] true).minElements 2 ≠ Tuple.mk [("x", 2)] true := by
  refine ⟨fun t func c => ?_, by decide, by decide, by decide, by decide,
    by decide, by decide, by decide, by decide⟩
  simp [Tuple.mapElements]

/-! ### C1: concrete linearization facts and the 4x3 bijection -/

/-- C1: `layout` on extents {x:4, y:3} with firstInner=true yields 0, 3, 4,
11 on the listed offsets and is a bijection from the 4x3 box onto [0, 12);
on extents {t:1,x:8,y:8,z:8} with firstInner=false (z fastest) it maps
{t:0,x:1,y:0,z:0} to 64 and {t:0,x:0,y:0,z:1} to 1. -/
theorem c1_layout_examples_and_bijection :
    c1Ext.layout (c1Off 0 0) true = .ok 0
  ∧ c1Ext.layout (c1Off 3 0) true = .ok 3
  ∧ c1Ext.layout (c1Off 0 1) true = .ok 4
  ∧ c1Ext.layout (c1Off 3 2) true = .ok 11
  ∧ List.Perm (c1Box.map (fun p => c1Ext.layout p true))
      ((List.range 12).map Except.ok)
  ∧ c1Ext2.layout (c1Off4 0 1 0 0) true = .ok 64
  ∧ c1Ext2.layout (c1Off4 0 0 0 1) true = .ok 1 := by
  refine ⟨by decide, by decide, by decide, by decide, by decide, by decide, by decide⟩

/-! ### C6: the align cross-lane movement -/

theorem range_add_append (a b : ℕ) :
    List.range (a + b) = List.range a ++ (List.range b).map (fun j => a + j) := by
  induction b with
  | zero => simp
  | succ n ih =>
    rw [show a + (n + 1) = (a + n) + 1 by omega, List.range_succ, ih,
      List.range_succ, List.map_append, List.append_assoc]
    simp

theorem laneList_split {α : Type} (m k : ℕ) (f : ℕ → α) :
    laneList (m + k) f = laneList m f ++ (List.range k).map (fun j => f (m + j)) := by
  unfold laneList
  rw [range_add_append, List.map_append, List.map_map]
  rfl

/-- C6: `real_vec_align` forms the concatenation of `a` after `b` shifted
right by `count` lanes: lane `i` of the result is `b[i+count]` for
`i < VLEN-count` and `a[i+count-VLEN]` otherwise (so the upper `count` lanes
are `a[0..count)`); in particular `align(a,b,0) = b` and
`align(a,b,VLEN) = a` on every lane. -/
theorem c6_align (α : Type) (VLEN count : ℕ) (a b : ℕ → α) (hc : count ≤ VLEN) :
    laneList VLEN (real_vec_align VLEN count a b)
      = laneList (VLEN - count) (fun i => b (i + count)) ++ laneList count a
  ∧ laneList VLEN (real_vec_align VLEN 0 a b) = laneList VLEN b
  ∧ laneList VLEN (real_vec_align VLEN VLEN a b) = laneList VLEN a := by
  refine ⟨?_, ?_, ?_⟩
  · have hsplit := laneList_split (VLEN - count) count (real_vec_align VLEN count a b)
    rw [Nat.sub_add_cancel hc] at hsplit
    rw [hsplit]
    congr 1
    · apply List.map_congr_left
      intro i hi
      have hilt : i < VLEN - count := List.mem_range.mp hi
      show (if i < VLEN - count then b (i + count) else a (i + count - VLEN)) = b (i + count)
      rw [if_pos hilt]
    · unfold laneList
      apply List.map_congr_left
      intro j hj
      have hjc : j < count := List.mem_range.mp hj
      have h1 : ¬ (VLEN - count + j < VLEN - count) := by omega
      show (if VLEN - count + j < VLEN - count then b (VLEN - count + j + count)
            else a (VLEN - count + j + count - VLEN)) = a j
      rw [if_neg h1, show VLEN - count + j + count - VLEN = j by omega]
  · apply List.map_congr_left
    intro i hi
    have hiv : i < VLEN := List.mem_range.mp hi
    show (if i < VLEN - 0 then b (i + 0) else a (i + 0 - VLEN)) = b i
    rw [if_pos (by omega : i < VLEN - 0), Nat.add_zero]
  · apply List.map_congr_left
    intro i hi
    have hiv : i < VLEN := List.mem_range.mp hi
    show (if i < VLEN - VLEN then b (i + VLEN) else a (i + VLEN - VLEN)) = a i
    rw [if_neg (by omega : ¬ (i < VLEN - VLEN)), Nat.add_sub_cancel]

/-! ### C7: tolerance comparison -/

/-- The Bool returned by the scalar tolerance test, as a proposition. -/
theorem within_tolerance_eq_true_iff (val ref epsilon : ℚ) :
    within_tolerance val ref epsilon = true ↔
      |val - ref| < if |ref| > 1 then |ref * epsilon| else epsilon := by
  unfold within_tolerance
  simp only [decide_eq_true_eq]

/-- C7 counterexample: the claim's per-lane effective epsilon
`epsilon * |reference|` in the `|reference| > 1` regime disagrees with the
code.  At value = 2, reference = 2, epsilon = -1 the code computes
`fabs(ref * epsilon)` = 2 and accepts (`|2-2| = 0 < 2`), while the claimed
test `|value - reference| < epsilon * |reference|` reads `0 < -2`, which is
false. -/
theorem c7_counterexample :
    within_tolerance 2 2 (-1) = true
  ∧ ¬ (|(2 : ℚ) - 2| < (-1 : ℚ) * |(2 : ℚ)|)
  ∧ |(2 : ℚ)| > 1 := by
  have habs2 : |(2 : ℚ)| = 2 := abs_of_pos (by norm_num)
  refine ⟨?_, ?_, ?_⟩
  · rw [within_tolerance_eq_true_iff, sub_self, abs_zero,
      if_pos (show |(2 : ℚ)| > 1 by rw [habs2]; norm_num),
      show (2 : ℚ) * (-1) = -2 by norm_num, abs_neg, habs2]
    norm_num
  · rw [sub_self, abs_zero, habs2]
    norm_num
  · rw [habs2]
    norm_num

/-- C7 (amended): the vector comparison is the AND over all lanes of the
per-lane test `|value - reference| < effectiveEpsilon`, where
`effectiveEpsilon` is `epsilon` when `|reference| ≤ 1` and
`|reference * epsilon|` when `|reference| > 1` (equal to
`epsilon * |reference|` whenever `epsilon ≥ 0`); hence
`withinTolerance(x, x, eps)` holds for every x and eps > 0,
`withinTolerance(1000, 1000.5, 1e-3)` holds via the relative regime, and
`withinTolerance(0.0005, 0, 1e-3)` is decided by the absolute branch. -/
theorem c7_within_tolerance_amended (VLEN : ℕ) (v r e : ℕ → ℚ)
    (val ref ε x eps : ℚ) (heps : 0 < eps) :
    within_tolerance_vec VLEN v r e
      = (List.range VLEN).all (fun j => within_tolerance (v j) (r j) (e j))
  ∧ within_tolerance val ref ε
      = decide (|val - ref| < if |ref| > 1 then |ref * ε| else ε)
  ∧ within_tolerance x x eps = true
  ∧ (within_tolerance 1000 (2001/2) (1/1000) = true ∧ |((2001 : ℚ)/2)| > 1)
  ∧ (within_tolerance (1/2000) 0 (1/1000) = true ∧ ¬ (|(0 : ℚ)| > 1)) := by
  have habsr : |((2001 : ℚ)/2)| = 2001/2 := abs_of_pos (by norm_num)
  refine ⟨rfl, rfl, ?_, ⟨?_, ?_⟩, ⟨?_, ?_⟩⟩
  · unfold within_tolerance
    simp only [sub_self, abs_zero, decide_eq_true_eq]
    by_cases hx : |x| > 1
    · rw [if_pos hx]
      have hx0 : x ≠ 0 := by
        intro h0
        rw [h0, abs_zero] at hx
        exact absurd hx (by norm_num)
      exact abs_pos.mpr (mul_ne_zero hx0 (ne_of_gt heps))
    · rw [if_neg hx]
      exact heps
  · rw [within_tolerance_eq_true_iff,
      if_pos (show |((2001 : ℚ)/2)| > 1 by rw [habsr]; norm_num),
      abs_of_pos (show (0 : ℚ) < 2001/2 * (1/1000) by norm_num),
      abs_of_nonpos (show (1000 : ℚ) - 2001/2 ≤ 0 by norm_num)]
    norm_num
  · rw [habsr]
    norm_num
  · rw [within_tolerance_eq_true_iff, abs_zero,
      if_neg (show ¬ ((1 : ℚ) < 0) by norm_num), sub_zero,
      abs_of_pos (show (0 : ℚ) < 1/2000 by norm_num)]
    norm_num
  · rw [abs_zero]
    norm_num

/-- Witness for C7 (amended) at concrete inputs. -/
theorem c7_within_tolerance_amended_witness :
    (0 : ℚ) < 1
  ∧ (within_tolerance_vec 1 c7z c7z c7z
        = (List.range 1).all (fun j => within_tolerance (c7z j) (c7z j) (c7z j))
    ∧ within_tolerance 3 5 2
        = decide (|(3 : ℚ) - 5| < if |(5 : ℚ)| > 1 then |(5 : ℚ) * 2| else 2)
    ∧ within_tolerance 7 7 1 = true
    ∧ (within_tolerance 1000 (2001/2) (1/1000) = true ∧ |((2001 : ℚ)/2)| > 1)
    ∧ (within_tolerance (1/2000) 0 (1/1000) = true ∧ ¬ (|(0 : ℚ)| > 1))) :=
  ⟨by norm_num, c7_within_tolerance_amended 1 c7z c7z c7z 3 5 2 7 1 (by norm_num)⟩

/-! ### C10: removeDim -/

theorem addDimBack_of_not_mem {t : Tuple} {d : String} {v : Int}
    (h : d ∉ t.dimNames) :
    t.addDimBack d v = { q := t.q ++ [(d, v)], firstInner := t.firstInner } := by
  unfold Tuple.addDimBack
  rw [lookup_eq_none_of_not_mem h]
  rfl

theorem dimNames_addDimBack_of_not_mem {t : Tuple} {d : String} {v : Int}
    (h : d ∉ t.dimNames) :
    (t.addDimBack d v).dimNames = t.dimNames ++ [d] := by
  rw [addDimBack_of_not_mem h]
  simp [Tuple.dimNames]

theorem removeDim_go (d : String) (l : List (String × Int)) :
    ∀ (acc : Tuple),
      (l.map Prod.fst).Nodup →
      (∀ p ∈ l, p.1 ∉ acc.dimNames) →
      (l.foldl (fun newt p => if p.1 ≠ d then newt.addDimBack p.1 p.2 else newt) acc).q
          = acc.q ++ l.filter (fun p => p.1 != d)
      ∧ (l.foldl (fun newt p => if p.1 ≠ d then newt.addDimBack p.1 p.2 else newt)
            acc).firstInner = acc.firstInner := by
  induction l with
  | nil => intro acc _ _; simp
  | cons p rest ih =>
    intro acc hnd hacc
    have hhead : p.1 ∉ rest.map Prod.fst := (List.nodup_cons.mp hnd).1
    have hndr : (rest.map Prod.fst).Nodup := (List.nodup_cons.mp hnd).2
    rw [List.foldl_cons]
    by_cases hpd : p.1 ≠ d
    · rw [if_pos hpd]
      have hmem : p.1 ∉ acc.dimNames := hacc p (List.mem_cons_self p rest)
      have hq' : (acc.addDimBack p.1 p.2)
          = { q := acc.q ++ [(p.1, p.2)], firstInner := acc.firstInner } :=
        addDimBack_of_not_mem hmem
      have haccr : ∀ r ∈ rest, r.1 ∉ (acc.addDimBack p.1 p.2).dimNames := by
        intro r hr
        rw [dimNames_addDimBack_of_not_mem hmem]
        intro hmem'
        rcases List.mem_append.mp hmem' with h1 | h2
        · exact hacc r (List.mem_cons_of_mem p hr) h1
        · have : r.1 = p.1 := by simpa using h2
          exact hhead (this ▸ List.mem_map_of_mem Prod.fst hr)
      rcases ih (acc.addDimBack p.1 p.2) hndr haccr with ⟨hiq, hifi⟩
      constructor
      · rw [hiq, hq']
        rw [List.filter_cons_of_pos (by simpa using hpd)]
        simp
      · rw [hifi, hq']
    · rw [if_neg hpd]
      have haccr : ∀ r ∈ rest, r.1 ∉ acc.dimNames := fun r hr =>
        hacc r (List.mem_cons_of_mem p hr)
      rcases ih acc hndr haccr with ⟨hiq, hifi⟩
      constructor
      · rw [hiq, List.filter_cons_of_neg (by simpa using hpd)]
      · exact hifi

/-- C10: `removeDim` preserves the relative order and values of all
remaining dimensions (and is a dimension-wise copy when the removed name is
absent), but the returned tuple's orientation flag is always the default
first-inner = true, even when the source's flag was false. -/
theorem c10_removeDim (t : Tuple) (d : String) (h : t.dimNames.Nodup) :
    (t.removeDim d).q = t.q.filter (fun p => p.1 != d)
  ∧ (d ∉ t.dimNames → (t.removeDim d).q = t.q)
  ∧ (t.removeDim d).firstInner = true := by
  have hgo := removeDim_go d t.q { q := [], firstInner := true } h
    (by intro p hp; simp [Tuple.dimNames])
  unfold Tuple.removeDim
  refine ⟨by simpa using hgo.1, ?_, by simpa using hgo.2⟩
  intro hd
  rw [hgo.1]
  show List.filter (fun p => p.1 != d) t.q = t.q
  apply List.filter_eq_self.mpr
  intro p hp
  have : p.1 ∈ t.dimNames := List.mem_map_of_mem Prod.fst hp
  simp only [bne_iff_ne, ne_eq]
  intro hpd
  exact hd (hpd ▸ this)

/-- Witness for C10 at a concrete tuple with firstInner = false. -/
theorem c10_removeDim_witness :
    c10t.dimNames.Nodup
  ∧ ((c10t.removeDim "y").q = c10t.q.filter (fun p => p.1 != "y")
    ∧ ("y" ∉ c10t.dimNames → (c10t.removeDim "y").q = c10t.q)
    ∧ (c10t.removeDim "y").firstInner = true) :=
  ⟨by decide, c10_removeDim c10t "y" (by decide)⟩

/-! ### C8: makeUnionWith -/

theorem lookup_addDimBack_ne {u : Tuple} {dnew : String} {v : Int} {d : String}
    (hne : d ≠ dnew) (habs : dnew ∉ u.dimNames) :
    (u.addDimBack dnew v).lookup d = u.lookup d := by
  rw [addDimBack_of_not_mem habs]
  show lookupL (u.q ++ [(dnew, v)]) d = lookupL u.q d
  rw [lookupL_append]
  cases h : lookupL u.q d with
  | some w => rfl
  | none =>
    show lookupL [(dnew, v)] d = none
    rw [lookupL_cons_ne (show (dnew, v).1 ≠ d from hne.symm)]
    rfl

theorem lookupL_filter {l : List (String × Int)} {pred : String × Int → Bool}
    {d : String} (h : ∀ p : String × Int, p.1 = d → pred p = true) :
    lookupL (l.filter pred) d = lookupL l d := by
  induction l with
  | nil => rfl
  | cons p rest ih =>
    by_cases hp : p.1 = d
    · subst hp
      rw [List.filter_cons_of_pos (h p rfl), lookupL_cons_self, lookupL_cons_self]
    · by_cases hpred : pred p = true
      · rw [List.filter_cons_of_pos hpred, lookupL_cons_ne hp, lookupL_cons_ne hp, ih]
      · rw [List.filter_cons_of_neg (by simpa using hpred), lookupL_cons_ne hp, ih]

theorem unionWith_go (l : List (String × Int)) :
    ∀ (u : Tuple), (l.map Prod.fst).Nodup →
      ((l.foldl (fun u p => if (u.lookup p.1).isSome then u
          else u.addDimBack p.1 p.2) u).q
        = u.q ++ l.filter (fun p => !(u.lookup p.1).isSome))
      ∧ ((l.foldl (fun u p => if (u.lookup p.1).isSome then u
          else u.addDimBack p.1 p.2) u).firstInner = u.firstInner) := by
  induction l with
  | nil => intro u _; simp
  | cons p rest ih =>
    intro u hnd
    have hhead : p.1 ∉ rest.map Prod.fst := (List.nodup_cons.mp hnd).1
    have hndr : (rest.map Prod.fst).Nodup := (List.nodup_cons.mp hnd).2
    rw [List.foldl_cons]
    by_cases hs : (u.lookup p.1).isSome = true
    · rw [if_pos hs]
      rcases ih u hndr with ⟨hiq, hifi⟩
      refine ⟨?_, hifi⟩
      rw [hiq, List.filter_cons_of_neg (by simp [hs])]
    · rw [if_neg hs]
      have habs : p.1 ∉ u.dimNames := fun hmem => hs (lookup_isSome_of_mem hmem)
      have hq' : (u.addDimBack p.1 p.2)
          = { q := u.q ++ [(p.1, p.2)], firstInner := u.firstInner } :=
        addDimBack_of_not_mem habs
      rcases ih (u.addDimBack p.1 p.2) hndr with ⟨hiq, hifi⟩
      have hfilter : rest.filter (fun r => !((u.addDimBack p.1 p.2).lookup r.1).isSome)
          = rest.filter (fun r => !(u.lookup r.1).isSome) := by
        apply List.filter_congr
        intro r hr
        have hrne : r.1 ≠ p.1 := fun he => hhead (he ▸ List.mem_map_of_mem Prod.fst hr)
        rw [lookup_addDimBack_ne hrne habs]
      constructor
      · rw [hiq, hfilter, hq',
          List.filter_cons_of_pos (by simp [Bool.not_eq_true] at hs ⊢; exact hs)]
        simp
      · rw [hifi, hq']

theorem makeUnionWith_q (t rhs : Tuple) (hr : rhs.dimNames.Nodup) :
    (t.makeUnionWith rhs).q
      = t.q ++ rhs.q.filter (fun p => !(t.lookup p.1).isSome) :=
  (unionWith_go rhs.q t hr).1

theorem unionWith_names_toFinset (t rhs : Tuple) (hr : rhs.dimNames.Nodup) :
    (t.makeUnionWith rhs).dimNames.toFinset
      = t.dimNames.toFinset ∪ rhs.dimNames.toFinset := by
  apply Finset.ext
  intro n
  simp only [List.mem_toFinset, Finset.mem_union]
  show n ∈ (t.makeUnionWith rhs).q.map Prod.fst ↔ _
  rw [makeUnionWith_q t rhs hr, List.map_append, List.mem_append]
  constructor
  · rintro (h1 | h2)
    · exact Or.inl h1
    · rcases List.mem_map.mp h2 with ⟨p, hpf, hpn⟩
      rcases List.mem_filter.mp hpf with ⟨hp, _⟩
      exact Or.inr (hpn ▸ List.mem_map_of_mem Prod.fst hp)
  · rintro (h1 | h2)
    · exact Or.inl h1
    · by_cases hmem : n ∈ t.dimNames
      · exact Or.inl hmem
      · rcases List.mem_map.mp h2 with ⟨p, hp, hpn⟩
        have hpf : p ∈ rhs.q.filter (fun p => !(t.lookup p.1).isSome) :=
          List.mem_filter.mpr ⟨hp, by
            rw [show p.1 = n from hpn, lookup_eq_none_of_not_mem hmem]
            rfl⟩
        exact Or.inr (hpn ▸ List.mem_map_of_mem Prod.fst hpf)

theorem unionWith_self (t : Tuple) : t.makeUnionWith t = t := by
  unfold Tuple.makeUnionWith
  have hgen : ∀ (l : List (String × Int)) (u : Tuple),
      (∀ p ∈ l, (u.lookup p.1).isSome) →
      l.foldl (fun u p => if (u.lookup p.1).isSome then u
        else u.addDimBack p.1 p.2) u = u := by
    intro l
    induction l with
    | nil => intro u _; rfl
    | cons p rest ih =>
      intro u hall
      rw [List.foldl_cons, if_pos (hall p (List.mem_cons_self p rest))]
      exact ih u (fun r hr => hall r (List.mem_cons_of_mem p hr))
  exact hgen t.q t (fun p hp => lookup_isSome_of_mem (List.mem_map_of_mem Prod.fst hp))

/-- C8: `makeUnionWith` returns a copy of `this` extended with the
dimensions of `other` absent from `this` (carrying `other`'s values); where
a dimension exists in both, `this`'s value wins; the resulting name set is
idempotent and commutative. -/
theorem c8_makeUnionWith (t rhs a b : Tuple) (d : String)
    (hr : rhs.dimNames.Nodup) (ha : a.dimNames.Nodup) (hb : b.dimNames.Nodup) :
    (t.makeUnionWith rhs).dimNames.toFinset
        = t.dimNames.toFinset ∪ rhs.dimNames.toFinset
  ∧ (d ∈ t.dimNames → (t.makeUnionWith rhs).lookup d = t.lookup d)
  ∧ (d ∉ t.dimNames → (t.makeUnionWith rhs).lookup d = rhs.lookup d)
  ∧ t.makeUnionWith t = t
  ∧ (a.makeUnionWith b).dimNames.toFinset = (b.makeUnionWith a).dimNames.toFinset := by
  refine ⟨unionWith_names_toFinset t rhs hr, ?_, ?_, unionWith_self t, ?_⟩
  · intro hd
    obtain ⟨v, hv⟩ := Option.isSome_iff_exists.mp (lookup_isSome_of_mem hd)
    show lookupL (t.makeUnionWith rhs).q d = t.lookup d
    rw [makeUnionWith_q t rhs hr, lookupL_append,
      show lookupL t.q d = some v from hv, hv]
  · intro hd
    show lookupL (t.makeUnionWith rhs).q d = rhs.lookup d
    rw [makeUnionWith_q t rhs hr, lookupL_append,
      show lookupL t.q d = none from lookup_eq_none_of_not_mem hd]
    show lookupL (rhs.q.filter (fun p => !(t.lookup p.1).isSome)) d = lookupL rhs.q d
    apply lookupL_filter
    intro p hpd
    rw [show p.1 = d from hpd, lookup_eq_none_of_not_mem hd]
    rfl
  · rw [unionWith_names_toFinset a b hb, unionWith_names_toFinset b a ha,
      Finset.union_comm]

/-- Witness for C8 at concrete tuples. -/
theorem c8_makeUnionWith_witness :
    c8r.dimNames.Nodup ∧ c8t.dimNames.Nodup
  ∧ ((c8t.makeUnionWith c8r).dimNames.toFinset
        = c8t.dimNames.toFinset ∪ c8r.dimNames.toFinset
    ∧ ("y" ∈ c8t.dimNames → (c8t.makeUnionWith c8r).lookup "y" = c8t.lookup "y")
    ∧ ("y" ∉ c8t.dimNames → (c8t.makeUnionWith c8r).lookup "y" = c8r.lookup "y")
    ∧ c8t.makeUnionWith c8t = c8t
    ∧ (c8t.makeUnionWith c8r).dimNames.toFinset
        = (c8r.makeUnionWith c8t).dimNames.toFinset) :=
  ⟨by decide, by decide, c8_makeUnionWith c8t c8r c8t c8r "y"
    (by decide) (by decide) (by decide)⟩

/-! ### C5: the ordering operators -/

theorem ltValsAux_eq_pairLex (qa : List (String × Int)) (rhs : Tuple) :
    ltValsAux qa rhs = pairLex (qa.map (fun p => (p.2, rhs.getVal p.1))) := by
  induction qa with
  | nil => rfl
  | cons p rest ih => simp only [ltValsAux, pairLex, List.map_cons, ih]

theorem pairLex_trichotomy (l : List (Int × Int)) :
    (pairLex l = true ∧ pairLex (l.map Prod.swap) = false
      ∧ l.all (fun p => p.1 == p.2) = false)
  ∨ (pairLex l = false ∧ pairLex (l.map Prod.swap) = true
      ∧ l.all (fun p => p.1 == p.2) = false)
  ∨ (pairLex l = false ∧ pairLex (l.map Prod.swap) = false
      ∧ l.all (fun p => p.1 == p.2) = true) := by
  induction l with
  | nil => exact Or.inr (Or.inr ⟨rfl, rfl, rfl⟩)
  | cons p rest ih =>
    rcases lt_trichotomy p.1 p.2 with hlt | heq | hgt
    · refine Or.inl ⟨?_, ?_, ?_⟩
      · show (if p.1 < p.2 then true else if p.2 < p.1 then false else pairLex rest) = true
        rw [if_pos hlt]
      · show (if p.2 < p.1 then true else if p.1 < p.2 then false
            else pairLex (rest.map Prod.swap)) = false
        rw [if_neg (by omega), if_pos hlt]
      · simp only [List.all_cons, Bool.and_eq_false_iff]
        exact Or.inl (by simp [Int.lt_iff_le_and_ne.mp hlt])
    · have h1 : ¬ (p.1 < p.2) := by omega
      have h2 : ¬ (p.2 < p.1) := by omega
      have hL : pairLex (p :: rest) = pairLex rest := by
        show (if p.1 < p.2 then true else if p.2 < p.1 then false else pairLex rest) = _
        rw [if_neg h1, if_neg h2]
      have hR : pairLex ((p :: rest).map Prod.swap) = pairLex (rest.map Prod.swap) := by
        show (if p.2 < p.1 then true else if p.1 < p.2 then false
            else pairLex (rest.map Prod.swap)) = _
        rw [if_neg h2, if_neg h1]
      have hA : (p :: rest).all (fun p => p.1 == p.2) = rest.all (fun p => p.1 == p.2) := by
        simp [List.all_cons, heq]
      rw [hL, hR, hA]
      exact ih
    · refine Or.inr (Or.inl ⟨?_, ?_, ?_⟩)
      · show (if p.1 < p.2 then true else if p.2 < p.1 then false else pairLex rest) = false
        rw [if_neg (by omega), if_pos hgt]
      · show (if p.2 < p.1 then true else if p.1 < p.2 then false
            else pairLex (rest.map Prod.swap)) = true
        rw [if_pos hgt]
      · simp only [List.all_cons, Bool.and_eq_false_iff]
        refine Or.inl (by simp [show p.1 ≠ p.2 by omega])

theorem map_getVal_eq (fi : Bool) (qa : List (String × Int)) :
    ∀ (qb : List (String × Int)),
      qa.map Prod.fst = qb.map Prod.fst → (qb.map Prod.fst).Nodup →
      qa.map (fun p => Tuple.getVal ⟨qb, fi⟩ p.1) = qb.map Prod.snd := by
  induction qa with
  | nil =>
    intro qb h _
    have hqb : qb = [] := by
      cases qb with
      | nil => rfl
      | cons x xs => simp at h
    rw [hqb]
    rfl
  | cons p rest ih =>
    intro qb h hnd
    cases qb with
    | nil => simp at h
    | cons pb restb =>
      simp only [List.map_cons, List.cons.injEq] at h
      have hnd1 : pb.1 ∉ restb.map Prod.fst := (List.nodup_cons.mp hnd).1
      have hnd2 : (restb.map Prod.fst).Nodup := (List.nodup_cons.mp hnd).2
      rw [List.map_cons, List.map_cons]
      congr 1
      · show Tuple.getVal ⟨pb :: restb, fi⟩ p.1 = pb.2
        rw [h.1]
        unfold Tuple.getVal Tuple.lookup
        rw [show lookupL (pb :: restb) pb.1 = some pb.2 from lookupL_cons_self]
        rfl
      · have hstep : rest.map (fun p => Tuple.getVal ⟨pb :: restb, fi⟩ p.1)
            = rest.map (fun p => Tuple.getVal ⟨restb, fi⟩ p.1) := by
          apply List.map_congr_left
          intro r hr
          have hmem : r.1 ∈ restb.map Prod.fst := by
            rw [← h.2]
            exact List.mem_map_of_mem Prod.fst hr
          have hrne : r.1 ≠ pb.1 := fun he => hnd1 (he ▸ hmem)
          unfold Tuple.getVal Tuple.lookup
          rw [show lookupL (pb :: restb) r.1 = lookupL restb r.1 from
            lookupL_cons_ne (Ne.symm hrne)]
        rw [hstep, ih restb h.2 hnd2]

theorem areDimsSame_of_names_eq {a b : Tuple} (h : a.dimNames = b.dimNames) :
    a.areDimsSame b = true := by
  unfold Tuple.areDimsSame
  rw [Bool.and_eq_true]
  constructor
  · have hlen : a.q.length = b.q.length := by
      have := congrArg List.length h
      simpa [Tuple.dimNames] using this
    simp [Tuple.size, hlen]
  · apply List.all_eq_true.mpr
    intro p hp
    have : p.1 ∈ b.dimNames := h ▸ List.mem_map_of_mem Prod.fst hp
    simpa using lookup_isSome_of_mem this

theorem size_eq_of_names_eq {a b : Tuple} (h : a.dimNames = b.dimNames) :
    a.size = b.size := by
  have := congrArg List.length h
  simpa [Tuple.dimNames, Tuple.size] using this

theorem tupleLt_eq_pairLex {a b : Tuple} (hnames : a.dimNames = b.dimNames)
    (hnd : b.dimNames.Nodup) :
    a.tupleLt b = pairLex (List.zip a.vals b.vals) := by
  have hlen := size_eq_of_names_eq hnames
  unfold Tuple.tupleLt
  rw [if_neg (by omega), if_neg (by omega),
    if_pos (areDimsSame_of_names_eq hnames), ltValsAux_eq_pairLex]
  congr 1
  have h1 : a.q.map (fun p => (p.2, b.getVal p.1))
      = List.zip (a.q.map Prod.snd) (a.q.map (fun p => b.getVal p.1)) :=
    (List.zip_map' Prod.snd (fun p => b.getVal p.1) a.q).symm
  have h2 : a.q.map (fun p => b.getVal p.1) = b.q.map Prod.snd :=
    map_getVal_eq b.firstInner a.q b.q hnames hnd
  rw [h1, h2]
  rfl

theorem all_map_comp {α β : Type} (l : List α) (f : α → β) (g : β → Bool) :
    (l.map f).all g = l.all (fun x => g (f x)) := by
  induction l with
  | nil => rfl
  | cons x rest ih => simp only [List.map_cons, List.all_cons, ih]

theorem int_beq_comm (x y : Int) : (x == y) = (y == x) := by
  by_cases h : x = y
  · rw [h]
  · have h' : y ≠ x := fun he => h he.symm
    simp [h, h']

theorem tupleEq_eq_all {a b : Tuple} (hnames : a.dimNames = b.dimNames)
    (hnd : b.dimNames.Nodup) :
    a.tupleEq b = (List.zip a.vals b.vals).all (fun p => p.1 == p.2) := by
  unfold Tuple.tupleEq
  rw [areDimsSame_of_names_eq hnames, Bool.true_and]
  have h1 : a.q.map (fun p => (p.2, b.getVal p.1))
      = List.zip (a.q.map Prod.snd) (a.q.map (fun p => b.getVal p.1)) :=
    (List.zip_map' Prod.snd (fun p => b.getVal p.1) a.q).symm
  have h2 : a.q.map (fun p => b.getVal p.1) = b.q.map Prod.snd :=
    map_getVal_eq b.firstInner a.q b.q hnames hnd
  have h3 : List.zip a.vals b.vals = a.q.map (fun p => (p.2, b.getVal p.1)) := by
    rw [h1, h2]
    rfl
  rw [h3, all_map_comp]
  show a.q.all (fun p => b.getVal p.1 == p.2)
      = a.q.all (fun p => p.2 == b.getVal p.1)
  induction a.q with
  | nil => rfl
  | cons p rest ih => simp only [List.all_cons, ih, int_beq_comm]

/-- C5 counterexample: `operator<` is not a total order.  For
a = {x:1, y:2} and b = {y:1, x:2} (equal counts, matching dimension sets,
different orders) each side compares values in its own dimension order, so
a < b and b < a hold simultaneously, refuting "exactly one of a < b, b < a,
a == b holds". -/
theorem c5_lt_counterexample :
    (Tuple.mk [("x", 1), ("y", 2)] true).tupleLt (Tuple.mk [("y", 1), ("x", 2)] true)
      = true
  ∧ (Tuple.mk [("y", 1), ("x", 2)] true).tupleLt (Tuple.mk [("x", 1), ("y", 2)] true)
      = true
  ∧ (Tuple.mk [("x", 1), ("y", 2)] true).tupleEq (Tuple.mk [("y", 1), ("x", 2)] true)
      = false := by
  refine ⟨by decide, by decide, by decide⟩

/-- C5 (amended): `operator<` sorts by dimension count first; with equal
counts and matching dimension sets the first differing value in `this`'s
order decides; otherwise the comma-joined dimension-name strings decide
lexicographically.  Trichotomy (exactly one of a < b, b < a, a == b) holds
for tuples listing the same dimension names in the same order, and the
derived `!=, <=, >, >=` are defined from `==` and `<`. -/
theorem c5_lt_amended (a b : Tuple) :
    (a.size < b.size → a.tupleLt b = true)
  ∧ (b.size < a.size → a.tupleLt b = false)
  ∧ (a.size = b.size → a.areDimsSame b = true → a.tupleLt b = ltValsAux a.q b)
  ∧ (a.size = b.size → a.areDimsSame b = false →
      a.tupleLt b = decide (a.makeDimStr < b.makeDimStr))
  ∧ (a.dimNames = b.dimNames → a.dimNames.Nodup →
      ((a.tupleLt b = true ∧ b.tupleLt a = false ∧ a.tupleEq b = false)
      ∨ (a.tupleLt b = false ∧ b.tupleLt a = true ∧ a.tupleEq b = false)
      ∨ (a.tupleLt b = false ∧ b.tupleLt a = false ∧ a.tupleEq b = true)))
  ∧ (a.tupleNe b = !(a.tupleEq b) ∧ a.tupleLe b = (a.tupleEq b || a.tupleLt b)
      ∧ a.tupleGt b = !(a.tupleLe b) ∧ a.tupleGe b = !(a.tupleLt b)) := by
  refine ⟨?_, ?_, ?_, ?_, ?_, rfl, rfl, rfl, rfl⟩
  · intro h
    unfold Tuple.tupleLt
    rw [if_pos h]
  · intro h
    unfold Tuple.tupleLt
    rw [if_neg (by omega), if_pos h]
  · intro h1 h2
    unfold Tuple.tupleLt
    rw [if_neg (by omega), if_neg (by omega), if_pos h2]
  · intro h1 h2
    unfold Tuple.tupleLt
    rw [if_neg (by omega), if_neg (by omega), if_neg (by rw [h2]; exact Bool.false_ne_true)]
  · intro hnames hnd
    have hndb : b.dimNames.Nodup := hnames ▸ hnd
    have hlta : a.tupleLt b = pairLex (List.zip a.vals b.vals) :=
      tupleLt_eq_pairLex hnames hndb
    have hltb : b.tupleLt a = pairLex (List.zip b.vals a.vals) :=
      tupleLt_eq_pairLex hnames.symm hnd
    have hswap : List.zip b.vals a.vals = (List.zip a.vals b.vals).map Prod.swap :=
      (List.zip_swap a.vals b.vals).symm
    have heq : a.tupleEq b = (List.zip a.vals b.vals).all (fun p => p.1 == p.2) :=
      tupleEq_eq_all hnames hndb
    rw [hlta, hltb, hswap, heq]
    exact pairLex_trichotomy (List.zip a.vals b.vals)

/-- Witness for C5 (amended), exercising each branch of the comparison at
concrete tuples. -/
theorem c5_lt_amended_witness :
    c5a.tupleLt c5c = true
  ∧ c5c.tupleLt c5a = false
  ∧ c5c.tupleLt c5d = ltValsAux c5c.q c5d
  ∧ c5c.tupleLt c5e = decide (c5c.makeDimStr < c5e.makeDimStr)
  ∧ ((c5c.tupleLt c5f = true ∧ c5f.tupleLt c5c = false ∧ c5c.tupleEq c5f = false)
    ∨ (c5c.tupleLt c5f = false ∧ c5f.tupleLt c5c = true ∧ c5c.tupleEq c5f = false)
    ∨ (c5c.tupleLt c5f = false ∧ c5f.tupleLt c5c = false ∧ c5c.tupleEq c5f = true))
  ∧ (c5c.tupleNe c5d = !(c5c.tupleEq c5d)
      ∧ c5c.tupleLe c5d = (c5c.tupleEq c5d || c5c.tupleLt c5d)
      ∧ c5c.tupleGt c5d = !(c5c.tupleLe c5d)
      ∧ c5c.tupleGe c5d = !(c5c.tupleLt c5d)) :=
  ⟨(c5_lt_amended c5a c5c).1 (by decide),
   (c5_lt_amended c5c c5a).2.1 (by decide),
   (c5_lt_amended c5c c5d).2.2.1 (by decide) (by decide),
   (c5_lt_amended c5c c5e).2.2.2.1 (by decide) (by decide),
   (c5_lt_amended c5c c5f).2.2.2.2.1 (by decide) (by decide),
   (c5_lt_amended c5c c5d).2.2.2.2.2⟩

/-- Witness for C6 at VLEN = 4, count = 1. -/
theorem c6_align_witness :
    1 ≤ 4
  ∧ (laneList 4 (real_vec_align 4 1 c6a c6b)
        = laneList (4 - 1) (fun i => c6b (i + 1)) ++ laneList 1 c6a
    ∧ laneList 4 (real_vec_align 4 0 c6a c6b) = laneList 4 c6b
    ∧ laneList 4 (real_vec_align 4 4 c6a c6b) = laneList 4 c6a) :=
  ⟨by decide, c6_align Int 4 1 c6a c6b (by decide)⟩

/-! ### Pure mixed-radix layer for C2 and C4 -/

theorem range_flatMap_map (e n : ℕ) :
    (List.range e).flatMap (fun i => (List.range n).map (fun v => i * n + v))
      = List.range (e * n) := by
  induction e with
  | zero => simp
  | succ m ih =>
    rw [List.range_succ, List.flatMap_append, ih]
    have h1 : [m].flatMap (fun i => (List.range n).map (fun v => i * n + v))
        = (List.range n).map (fun v => m * n + v) := by simp
    rw [h1, show (m + 1) * n = m * n + n by ring, range_add_append]

theorem enumRev_map_radixRev (es : List Nat) :
    (enumRev es).map (radixRev es) = List.range es.prod := by
  induction es with
  | nil => rfl
  | cons e rest ih =>
    show ((List.range e).flatMap
        (fun i => (enumRev rest).map (fun p => i :: p))).map (radixRev (e :: rest))
      = List.range ((e :: rest).prod)
    rw [List.map_flatMap]
    have hstep : ∀ i : ℕ,
        ((enumRev rest).map (fun p => i :: p)).map (radixRev (e :: rest))
          = (List.range rest.prod).map (fun v => i * rest.prod + v) := by
      intro i
      rw [List.map_map]
      have : (radixRev (e :: rest) ∘ fun p => i :: p)
          = fun p => i * rest.prod + radixRev rest p := by
        funext p
        rfl
      rw [this, show (fun p => i * rest.prod + radixRev rest p)
          = ((fun v => i * rest.prod + v) ∘ radixRev rest) from rfl, ← List.map_map, ih]
    rw [funext hstep, range_flatMap_map, List.prod_cons]

theorem enumRev_length (es : List Nat) : (enumRev es).length = es.prod := by
  have h := congrArg List.length (enumRev_map_radixRev es)
  simpa using h

theorem enumRev_mem {es : List Nat} {p : List Nat} (h : p ∈ enumRev es) :
    List.Forall₂ (fun d e => d < e) p es := by
  induction es generalizing p with
  | nil =>
    have hp : p = [] := by simpa [enumRev] using h
    rw [hp]
    exact List.Forall₂.nil
  | cons e rest ih =>
    simp only [enumRev, List.mem_flatMap, List.mem_map, List.mem_range] at h
    rcases h with ⟨i, hi, p', hp', rfl⟩
    exact List.Forall₂.cons hi (ih hp')

theorem prodP_pos {l : List (Nat × Nat)} (h : ∀ p ∈ l, p.2 < p.1) :
    1 ≤ prodP l := by
  induction l with
  | nil => exact Nat.le_refl 1
  | cons p rest ih =>
    have hp : 1 ≤ p.1 := by
      have := h p (List.mem_cons_self p rest)
      omega
    have hr : 1 ≤ prodP rest := ih (fun r hr => h r (List.mem_cons_of_mem p hr))
    show 1 ≤ (List.map Prod.fst (p :: rest)).prod
    rw [List.map_cons, List.prod_cons]
    exact Nat.one_le_iff_ne_zero.mpr (Nat.mul_ne_zero (by omega) (by
      have : (List.map Prod.fst rest).prod = prodP rest := rfl
      omega))

theorem layoutPairs_ok (l : List (Nat × Nat)) :
    ∀ (prodSz idx prevSize : Nat),
      (∀ p ∈ l, p.2 < p.1) → idx < prevSize → prodSz = prevSize * prodP l →
      layoutPairs prodSz l idx prevSize = .ok (idx + prevSize * valInner l) := by
  induction l with
  | nil =>
    intro prodSz idx prevSize _ _ _
    show Except.ok idx = Except.ok (idx + prevSize * valInner [])
    rw [show valInner [] = 0 from rfl, Nat.mul_zero, Nat.add_zero]
  | cons p rest ih =>
    intro prodSz idx prevSize hlt hidx hprod
    obtain ⟨e, d⟩ := p
    have hde : d < e := hlt (e, d) (List.mem_cons_self (e, d) rest)
    have hltr : ∀ r ∈ rest, r.2 < r.1 := fun r hr => hlt r (List.mem_cons_of_mem (e, d) hr)
    have hrpos : 1 ≤ prodP rest := prodP_pos hltr
    have hprodP : prodP ((e, d) :: rest) = e * prodP rest := by
      show (List.map Prod.fst ((e, d) :: rest)).prod = _
      rw [List.map_cons, List.prod_cons]
      rfl
    have hidx' : idx + d * prevSize < prevSize * e := by
      calc idx + d * prevSize < prevSize + d * prevSize := by omega
        _ = prevSize * (d + 1) := by ring
        _ ≤ prevSize * e := Nat.mul_le_mul_left prevSize (by omega)
    have hidxP : idx + d * prevSize < prodSz := by
      calc idx + d * prevSize < prevSize * e := hidx'
        _ ≤ prevSize * e * prodP rest := Nat.le_mul_of_pos_right _ (by omega)
        _ = prodSz := by rw [hprod, hprodP]; ring
    have hprevP : prevSize * e ≤ prodSz := by
      calc prevSize * e ≤ prevSize * e * prodP rest := Nat.le_mul_of_pos_right _ (by omega)
        _ = prodSz := by rw [hprod, hprodP]; ring
    show (if d < e then
        if idx + d * prevSize < prodSz then
          if prevSize * e ≤ prodSz then layoutPairs prodSz rest (idx + d * prevSize) (prevSize * e)
          else .error "prevSize exceeds product"
        else .error "index exceeds product"
      else .error "offset out of range") = .ok (idx + prevSize * valInner ((e, d) :: rest))
    rw [if_pos hde, if_pos hidxP, if_pos hprevP,
      ih prodSz (idx + d * prevSize) (prevSize * e) hltr hidx'
        (by rw [hprod, hprodP]; ring)]
    congr 1
    show idx + d * prevSize + prevSize * e * valInner rest
        = idx + prevSize * (d + e * valInner rest)
    ring

theorem valInner_append_singleton (l : List (Nat × Nat)) (e d : Nat) :
    valInner (l ++ [(e, d)]) = valInner l + d * prodP l := by
  induction l with
  | nil =>
    show valInner [(e, d)] = 0 + d * 1
    show d + e * 0 = 0 + d * 1
    ring
  | cons p rest ih =>
    obtain ⟨e', d'⟩ := p
    show d' + e' * valInner (rest ++ [(e, d)]) = valInner ((e', d') :: rest) + d * prodP ((e', d') :: rest)
    rw [ih]
    show d' + e' * (valInner rest + d * prodP rest)
        = (d' + e' * valInner rest) + d * ((List.map Prod.fst ((e', d') :: rest)).prod)
    rw [List.map_cons, List.prod_cons]
    show d' + e' * (valInner rest + d * prodP rest)
        = (d' + e' * valInner rest) + d * (e' * prodP rest)
    ring

theorem prodP_zip_reverse (es : List Nat) (ds : List Nat) (hlen : ds.length = es.length) :
    prodP ((List.zip es ds).reverse) = es.prod := by
  unfold prodP
  rw [List.map_reverse, List.prod_reverse,
    List.map_fst_zip es ds (by omega)]

theorem valInner_zip_reverse (es : List Nat) :
    ∀ (ds : List Nat), ds.length = es.length →
      valInner ((List.zip es ds).reverse) = radixRev es ds := by
  induction es with
  | nil =>
    intro ds hlen
    have : ds = [] := List.length_eq_zero.mp hlen
    rw [this]
    rfl
  | cons e rest ih =>
    intro ds hlen
    cases ds with
    | nil => simp at hlen
    | cons d ds' =>
      have hlen' : ds'.length = rest.length := by simpa using hlen
      show valInner (((e, d) :: List.zip rest ds').reverse) = radixRev (e :: rest) (d :: ds')
      rw [List.reverse_cons, valInner_append_singleton, ih ds' hlen',
        prodP_zip_reverse rest ds' hlen']
      show radixRev rest ds' + d * rest.prod = d * rest.prod + radixRev rest ds'
      ring

theorem int_toNat_mul {a b : Int} (ha : 0 ≤ a) (hb : 0 ≤ b) :
    (a * b).toNat = a.toNat * b.toNat := by
  have h1 : ((a * b).toNat : Int) = a * b := Int.toNat_of_nonneg (mul_nonneg ha hb)
  have h2 : ((a.toNat * b.toNat : Nat) : Int) = a * b := by
    push_cast
    rw [Int.toNat_of_nonneg ha, Int.toNat_of_nonneg hb]
  exact Int.ofNat_inj.mp (h1.trans h2.symm)

theorem int_toNat_prod (l : List Int) (h : ∀ x ∈ l, 0 ≤ x) :
    l.prod.toNat = (l.map Int.toNat).prod := by
  induction l with
  | nil => rfl
  | cons x rest ih =>
    have hx : 0 ≤ x := h x (List.mem_cons_self x rest)
    have hrest : ∀ y ∈ rest, 0 ≤ y := fun y hy => h y (List.mem_cons_of_mem x hy)
    rw [List.prod_cons, int_toNat_mul hx (List.prod_nonneg hrest), List.map_cons,
      List.prod_cons, ih hrest]

/-! ### Bridging the Tuple layer to the pure layer -/

theorem setVal_dimNames (t : Tuple) (d : String) (v : Int) :
    (t.setVal d v).dimNames = t.dimNames := by
  show (t.q.map (fun p => if p.1 = d then (p.1, v) else p)).map Prod.fst = t.q.map Prod.fst
  rw [List.map_map]
  apply List.map_congr_left
  intro p _
  by_cases hp : p.1 = d
  · simp [Function.comp, hp]
  · simp [Function.comp, hp]

theorem setVal_firstInner (t : Tuple) (d : String) (v : Int) :
    (t.setVal d v).firstInner = t.firstInner := rfl

theorem lookupL_map_set_ne (q : List (String × Int)) (dnew d : String) (v : Int)
    (h : d ≠ dnew) :
    lookupL (q.map (fun p => if p.1 = dnew then (p.1, v) else p)) d = lookupL q d := by
  induction q with
  | nil => rfl
  | cons p rest ih =>
    rw [List.map_cons]
    by_cases hp : p.1 = dnew
    · rw [if_pos hp]
      have h1 : ((p.1, v) : String × Int).1 ≠ d := by
        show p.1 ≠ d
        rw [hp]
        exact fun he => h he.symm
      rw [lookupL_cons_ne h1, lookupL_cons_ne (show p.1 ≠ d from hp ▸ h1), ih]
    · rw [if_neg hp]
      by_cases hd : p.1 = d
      · rw [show d = p.1 from hd.symm]
        rw [lookupL_cons_self, lookupL_cons_self]
      · rw [lookupL_cons_ne hd, lookupL_cons_ne hd, ih]

theorem lookup_setVal_ne {t : Tuple} {dnew d : String} {v : Int} (h : d ≠ dnew) :
    (t.setVal dnew v).lookup d = t.lookup d :=
  lookupL_map_set_ne t.q dnew d v h

theorem lookupL_map_set_self (q : List (String × Int)) (d : String) (v : Int)
    (h : d ∈ q.map Prod.fst) :
    lookupL (q.map (fun p => if p.1 = d then (p.1, v) else p)) d = some v := by
  induction q with
  | nil => simp at h
  | cons p rest ih =>
    rw [List.map_cons]
    by_cases hp : p.1 = d
    · rw [if_pos hp, show d = p.1 from hp.symm]
      exact lookupL_cons_self
    · rw [if_neg hp, lookupL_cons_ne hp]
      apply ih
      rw [List.map_cons] at h
      rcases List.mem_cons.mp h with h1 | h2
      · exact absurd h1.symm hp
      · exact h2

theorem lookup_setVal_self {t : Tuple} {d : String} {v : Int}
    (h : d ∈ t.dimNames) : (t.setVal d v).lookup d = some v :=
  lookupL_map_set_self t.q d v h

theorem flatMap_map_comp {α β γ : Type} (f : α → β) (g : β → List γ) (l : List α) :
    (l.map f).flatMap g = l.flatMap (fun x => g (f x)) := by
  induction l with
  | nil => rfl
  | cons x rest ih => simp only [List.map_cons, List.flatMap_cons, ih]

theorem visitLoop_eq (ds : List (String × Int)) :
    ∀ (tp : Tuple), visitLoop ds tp
      = (enumRev (ds.map (fun p => p.2.toNat))).map
          (fun digits => assignDigits tp ds digits) := by
  induction ds with
  | nil => intro tp; rfl
  | cons p rest ih =>
    intro tp
    obtain ⟨dim, v⟩ := p
    show (intRange v).flatMap (fun i => visitLoop rest (tp.setVal dim i)) = _
    unfold intRange
    rw [flatMap_map_comp]
    have hL : (fun k : Nat => visitLoop rest (tp.setVal dim (k : Int)))
        = fun k : Nat => (enumRev (rest.map (fun p => p.2.toNat))).map
            (fun digits => assignDigits (tp.setVal dim (k : Int)) rest digits) :=
      funext (fun k => ih (tp.setVal dim (k : Int)))
    rw [hL]
    show _ = (enumRev (v.toNat :: rest.map (fun p => p.2.toNat))).map
        (fun digits => assignDigits tp ((dim, v) :: rest) digits)
    rw [show enumRev (v.toNat :: rest.map (fun p => p.2.toNat))
        = (List.range v.toNat).flatMap
            (fun i => (enumRev (rest.map (fun p => p.2.toNat))).map
              (fun p => i :: p)) from rfl,
      List.map_flatMap]
    apply congrArg
    funext i
    rw [List.map_map]
    apply List.map_congr_left
    intro digits _
    rfl

theorem visitAll_eq (t : Tuple) :
    t.visitAllPoints
      = (enumRev ((vdims t).map (fun p => p.2.toNat))).map
          (fun digits => assignDigits t (vdims t) digits) := by
  have hmain := visitLoop_eq (vdims t) t
  unfold Tuple.visitAllPoints
  by_cases hq : t.q.isEmpty = true
  · rw [if_pos hq]
    have hqnil : t.q = [] := by
      cases hql : t.q with
      | nil => rfl
      | cons a l => rw [hql] at hq; simp at hq
    have hv : vdims t = [] := by
      unfold vdims
      rw [hqnil]
      split <;> rfl
    rw [hv]
    rfl
  · rw [if_neg hq]
    unfold vdims at hmain
    by_cases hf : t.firstInner = true
    · rw [if_pos hf] at hmain ⊢
      rw [hmain]
      unfold vdims
      rw [if_pos hf]
    · rw [if_neg hf] at hmain ⊢
      rw [hmain]
      unfold vdims
      rw [if_neg hf]

theorem assignFold_dimNames (l : List ((String × Int) × Nat)) :
    ∀ (tp : Tuple),
      (l.foldl (fun acc pr => acc.setVal pr.1.1 ((pr.2 : Int))) tp).dimNames
        = tp.dimNames := by
  induction l with
  | nil => intro tp; rfl
  | cons pr rest ih =>
    intro tp
    rw [List.foldl_cons, ih, setVal_dimNames]

theorem assignFold_firstInner (l : List ((String × Int) × Nat)) :
    ∀ (tp : Tuple),
      (l.foldl (fun acc pr => acc.setVal pr.1.1 ((pr.2 : Int))) tp).firstInner
        = tp.firstInner := by
  induction l with
  | nil => intro tp; rfl
  | cons pr rest ih =>
    intro tp
    rw [List.foldl_cons, ih, setVal_firstInner]

theorem assignDigits_dimNames (tp : Tuple) (ds : List (String × Int))
    (digits : List Nat) :
    (assignDigits tp ds digits).dimNames = tp.dimNames :=
  assignFold_dimNames (List.zip ds digits) tp

theorem assignDigits_lookup_of_not_mem (ds : List (String × Int)) :
    ∀ (digits : List Nat) (tp : Tuple) (d : String), d ∉ ds.map Prod.fst →
      (assignDigits tp ds digits).lookup d = tp.lookup d := by
  induction ds with
  | nil => intro digits tp d _; rfl
  | cons p rest ih =>
    intro digits tp d hd
    cases digits with
    | nil => rfl
    | cons dg digs =>
      have hne : d ≠ p.1 := by
        intro he
        exact hd (he ▸ List.mem_map_of_mem Prod.fst (List.mem_cons_self p rest))
      have hd' : d ∉ rest.map Prod.fst := by
        intro hmem
        rw [List.map_cons] at hd
        exact hd (List.mem_cons_of_mem p.1 hmem)
      show (assignDigits (tp.setVal p.1 ((dg : Int))) rest digs).lookup d = tp.lookup d
      rw [ih digs (tp.setVal p.1 ((dg : Int))) d hd', lookup_setVal_ne hne]

theorem assignDigits_lookup (ds : List (String × Int)) :
    ∀ (digits : List Nat) (tp : Tuple),
      (ds.map Prod.fst).Nodup → (∀ p ∈ ds, p.1 ∈ tp.dimNames) →
      ∀ pr ∈ List.zip ds digits,
        (assignDigits tp ds digits).lookup pr.1.1 = some ((pr.2 : Int)) := by
  induction ds with
  | nil => intro digits tp _ _ pr hpr; simp at hpr
  | cons p rest ih =>
    intro digits tp hnd hin pr hpr
    cases digits with
    | nil => simp at hpr
    | cons dg digs =>
      rw [List.map_cons] at hnd
      have hhead : p.1 ∉ rest.map Prod.fst := (List.nodup_cons.mp hnd).1
      have hndr : (rest.map Prod.fst).Nodup := (List.nodup_cons.mp hnd).2
      have hstep : assignDigits tp (p :: rest) (dg :: digs)
          = assignDigits (tp.setVal p.1 ((dg : Int))) rest digs := rfl
      rcases List.mem_cons.mp hpr with hpr1 | hpr2
      · rw [hpr1, hstep]
        show (assignDigits (tp.setVal p.1 ((dg : Int))) rest digs).lookup p.1
            = some ((dg : Int))
        rw [assignDigits_lookup_of_not_mem rest digs _ p.1 hhead,
          lookup_setVal_self (hin p (List.mem_cons_self p rest))]
      · rw [hstep]
        apply ih digs (tp.setVal p.1 ((dg : Int))) hndr ?_ pr hpr2
        intro r hr
        rw [setVal_dimNames]
        exact hin r (List.mem_cons_of_mem p hr)

theorem layoutLoop_eq_pairs (offsets : Tuple) (prodSz : Nat) (l : List (String × Int)) :
    ∀ (idx prevSize : Nat),
      layoutLoop offsets prodSz l idx prevSize
        = layoutPairs prodSz
            (l.map (fun p => (toSizeT p.2,
              match offsets.lookup p.1 with
              | some ov => toSizeT ov
              | none => 0))) idx prevSize := by
  induction l with
  | nil => intro idx prev; rfl
  | cons p rest ih =>
    intro idx prev
    obtain ⟨dim, v⟩ := p
    simp only [layoutLoop, List.map_cons, layoutPairs]
    split_ifs <;> first | rfl | exact ih _ _

theorem toSizeT_of_nonneg {v : Int} (h0 : 0 ≤ v) (h1 : v < 2 ^ 64) :
    toSizeT v = v.toNat := by
  unfold toSizeT
  rw [Int.emod_eq_of_lt h0 h1]

theorem foldl_mul_eq_prod (l : List Int) :
    ∀ a : Int, l.foldl (fun lhs rhs => lhs * rhs) a = a * l.prod := by
  induction l with
  | nil => intro a; exact (mul_one a).symm
  | cons x rest ih =>
    intro a
    rw [List.foldl_cons, ih (a * x), List.prod_cons, mul_assoc]

theorem product_eq_prod (t : Tuple) : t.product = (t.q.map Prod.snd).prod := by
  unfold Tuple.product Tuple.reduce
  cases hq : t.q with
  | nil => rfl
  | cons p rest =>
    show (rest.map Prod.snd).foldl (fun lhs rhs => lhs * rhs) p.2
        = ((p :: rest).map Prod.snd).prod
    rw [foldl_mul_eq_prod, List.map_cons, List.prod_cons]

theorem vdims_mem {t : Tuple} {p : String × Int} : p ∈ vdims t ↔ p ∈ t.q := by
  unfold vdims
  split
  · exact List.mem_reverse
  · exact Iff.rfl

theorem vdims_names_nodup {t : Tuple} (h : t.dimNames.Nodup) :
    ((vdims t).map Prod.fst).Nodup := by
  unfold vdims
  split
  · rw [List.map_reverse]
    exact List.nodup_reverse.mpr h
  · exact h

theorem vdims_vals_prod (t : Tuple) :
    ((vdims t).map Prod.snd).prod = (t.q.map Prod.snd).prod := by
  unfold vdims
  split
  · rw [List.map_reverse, List.prod_reverse]
  · rfl

theorem zip_mem_rel {α β γ : Type} (R : β → γ → Prop) (f : α → γ) :
    ∀ (ds : List α) (digs : List β), List.Forall₂ R digs (ds.map f) →
      ∀ pr ∈ List.zip ds digs, R pr.2 (f pr.1) := by
  intro ds
  induction ds with
  | nil => intro digs _ pr hpr; simp at hpr
  | cons d ds' ih =>
    intro digs hf pr hpr
    cases digs with
    | nil => simp at hpr
    | cons b digs' =>
      rw [List.map_cons] at hf
      rcases List.mem_cons.mp hpr with h1 | h2
      · rw [h1]
        exact (List.forall₂_cons.mp hf).1
      · exact ih digs' (List.forall₂_cons.mp hf).2 pr h2

theorem layout_assign (t : Tuple) (digits : List Nat)
    (hnd : t.dimNames.Nodup)
    (hnn : ∀ p ∈ t.q, 0 ≤ p.2) (hub : ∀ p ∈ t.q, p.2 < 2 ^ 64)
    (hprod : t.product < 2 ^ 64)
    (hdig : digits ∈ enumRev (esOf t)) :
    t.layout (assignDigits t (vdims t) digits) true
      = .ok (radixRev (esOf t) digits) := by
  have hforall : List.Forall₂ (fun d e => d < e) digits (esOf t) := enumRev_mem hdig
  have hlen : digits.length = (esOf t).length := List.Forall₂.length_eq hforall
  have hlen2 : digits.length = (vdims t).length := by
    rw [hlen]
    show ((vdims t).map (fun p => p.2.toNat)).length = (vdims t).length
    rw [List.length_map]
  have hnames : (assignDigits t (vdims t) digits).dimNames = t.dimNames :=
    assignDigits_dimNames t (vdims t) digits
  have hsame : t.areDimsSame (assignDigits t (vdims t) digits) = true :=
    areDimsSame_of_names_eq hnames.symm
  -- the strict check passes
  unfold Tuple.layout
  rw [if_neg (by rw [hsame]; simp)]
  -- the dims processed by layout are the reverse of the visit order
  have hldims : (if t.firstInner then t.q else t.q.reverse) = (vdims t).reverse := by
    unfold vdims
    by_cases hf : t.firstInner = true
    · rw [if_pos hf, if_pos hf, List.reverse_reverse]
    · rw [if_neg hf, if_neg hf]
  rw [hldims, layoutLoop_eq_pairs]
  -- identify the (extent, offset) pairs
  have hzl : vdims t = (List.zip (vdims t) digits).map Prod.fst :=
    (List.map_fst_zip (vdims t) digits (by omega)).symm
  have hpairs : ((vdims t).reverse).map (fun p => (toSizeT p.2,
        match (assignDigits t (vdims t) digits).lookup p.1 with
        | some ov => toSizeT ov
        | none => 0))
      = (List.zip (esOf t) digits).reverse := by
    rw [show ((vdims t).reverse) = ((List.zip (vdims t) digits).map Prod.fst).reverse
        from by rw [← hzl], ← List.map_reverse, List.map_map]
    have hcong : ∀ pr ∈ (List.zip (vdims t) digits).reverse,
        ((fun p => (toSizeT p.2,
          match (assignDigits t (vdims t) digits).lookup p.1 with
          | some ov => toSizeT ov
          | none => 0)) ∘ Prod.fst) pr = (pr.1.2.toNat, pr.2) := by
      intro pr hpr
      have hprz : pr ∈ List.zip (vdims t) digits := List.mem_reverse.mp hpr
      have hpq : pr.1 ∈ t.q := by
        have := List.of_mem_zip hprz
        exact vdims_mem.mp this.1
      have hlook : (assignDigits t (vdims t) digits).lookup pr.1.1
          = some ((pr.2 : Int)) := by
        apply assignDigits_lookup (vdims t) digits t (vdims_names_nodup hnd) ?_ pr hprz
        intro r hr
        exact List.mem_map_of_mem Prod.fst (vdims_mem.mp hr)
      have hforall' : List.Forall₂ (fun d e => d < e) digits
          ((vdims t).map (fun p => p.2.toNat)) := hforall
      have hdlt : pr.2 < pr.1.2.toNat :=
        zip_mem_rel (fun d e => d < e) (fun p => p.2.toNat)
          (vdims t) digits hforall' pr hprz
      have hdub : (pr.2 : Int) < 2 ^ 64 := by
        have hv := hub pr.1 hpq
        have hv0 := hnn pr.1 hpq
        have : pr.1.2.toNat < 2 ^ 64 := by omega
        omega
      show (toSizeT pr.1.2,
          match (assignDigits t (vdims t) digits).lookup pr.1.1 with
          | some ov => toSizeT ov
          | none => 0) = (pr.1.2.toNat, pr.2)
      rw [hlook, toSizeT_of_nonneg (hnn pr.1 hpq) (hub pr.1 hpq)]
      show (pr.1.2.toNat, toSizeT ((pr.2 : Int))) = (pr.1.2.toNat, pr.2)
      rw [toSizeT_of_nonneg (by omega) hdub]
      congr 1
    rw [List.map_congr_left hcong]
    unfold esOf
    rw [List.zip_map_left, ← List.map_reverse]
    apply List.map_congr_left
    intro pr _
    rfl
  rw [hpairs]
  -- apply the pure accumulation lemma
  have hvals0 : ∀ x ∈ t.q.map Prod.snd, 0 ≤ x := by
    intro x hx
    rcases List.mem_map.mp hx with ⟨p, hp, hpx⟩
    exact hpx ▸ hnn p hp
  have hmapcomp : ∀ (l : List (String × Int)),
      l.map (fun p => p.2.toNat) = (l.map Prod.snd).map Int.toNat := by
    intro l
    rw [List.map_map]
    rfl
  have hesprod : (esOf t).prod = ((t.q.map Prod.snd).map Int.toNat).prod := by
    unfold esOf vdims
    split
    · calc ((t.q.reverse).map (fun p => p.2.toNat)).prod
          = ((t.q.map (fun p => p.2.toNat)).reverse).prod := by
            rw [List.map_reverse]
        _ = (t.q.map (fun p => p.2.toNat)).prod := List.prod_reverse _
        _ = ((t.q.map Prod.snd).map Int.toNat).prod := by rw [hmapcomp]
    · rw [hmapcomp]
  have hprodSz : toSizeT t.product = (esOf t).prod := by
    rw [product_eq_prod t] at hprod ⊢
    rw [toSizeT_of_nonneg (List.prod_nonneg hvals0) hprod,
      int_toNat_prod (t.q.map Prod.snd) hvals0, hesprod]
  have hdlen : digits.length = (esOf t).length := hlen
  have hlt : ∀ pr ∈ (List.zip (esOf t) digits).reverse, pr.2 < pr.1 := by
    intro pr hpr
    have hprz := List.mem_reverse.mp hpr
    have hflip : List.Forall₂ (fun e d => d < e) (esOf t) digits := hforall.flip
    exact (List.forall₂_iff_zip.mp hflip).2 hprz
  rw [layoutPairs_ok ((List.zip (esOf t) digits).reverse) (toSizeT t.product) 0 1
    hlt (by omega)
    (by rw [hprodSz, Nat.one_mul, prodP_zip_reverse (esOf t) digits hdlen]),
    valInner_zip_reverse (esOf t) digits hdlen]
  congr 1
  omega

theorem esOf_prod_eq (t : Tuple) (hnn : ∀ p ∈ t.q, 0 ≤ p.2) :
    (esOf t).prod = t.product.toNat := by
  have hvals0 : ∀ x ∈ t.q.map Prod.snd, 0 ≤ x := by
    intro x hx
    rcases List.mem_map.mp hx with ⟨p, hp, hpx⟩
    exact hpx ▸ hnn p hp
  have hmapcomp : ∀ (l : List (String × Int)),
      l.map (fun p => p.2.toNat) = (l.map Prod.snd).map Int.toNat := by
    intro l
    rw [List.map_map]
    rfl
  calc (esOf t).prod
      = ((t.q.map Prod.snd).map Int.toNat).prod := by
        unfold esOf vdims
        split
        · rw [List.map_reverse, List.prod_reverse, hmapcomp]
        · rw [hmapcomp]
    _ = ((t.q.map Prod.snd).prod).toNat := (int_toNat_prod _ hvals0).symm
    _ = t.product.toNat := by rw [product_eq_prod]

/-- C2: for every extents tuple (unique dimension names, all extents in the
non-negative machine range, product within size_t), `visitAllPoints`
invokes the visitor exactly `product()` times, once per integer point of
the n-D box, each point exactly once, in increasing order of the linear
index that `layout` assigns under the same orientation flag; a tuple with
zero dimensions invokes the visitor exactly once. -/
theorem c2_visitAllPoints (t : Tuple)
    (hnd : t.dimNames.Nodup)
    (hnn : ∀ p ∈ t.q, 0 ≤ p.2)
    (hub : ∀ p ∈ t.q, p.2 < 2 ^ 64)
    (hprod : t.product < 2 ^ 64) :
    (t.visitAllPoints).map (fun p => t.layout p true)
        = (List.range t.product.toNat).map Except.ok
  ∧ (t.visitAllPoints).length = t.product.toNat
  ∧ ((t.visitAllPoints).length : Int) = t.product
  ∧ t.visitAllPoints.Nodup
  ∧ (t.q = [] → t.visitAllPoints = [t]) := by
  have hvals0 : ∀ x ∈ t.q.map Prod.snd, 0 ≤ x := by
    intro x hx
    rcases List.mem_map.mp hx with ⟨p, hp, hpx⟩
    exact hpx ▸ hnn p hp
  have hprodnn : 0 ≤ t.product := by
    rw [product_eq_prod]
    exact List.prod_nonneg hvals0
  have hmap : (t.visitAllPoints).map (fun p => t.layout p true)
      = (List.range t.product.toNat).map Except.ok := by
    rw [visitAll_eq t, List.map_map,
      show (vdims t).map (fun p => p.2.toNat) = esOf t from rfl]
    have hcong : ∀ digits ∈ enumRev (esOf t),
        ((fun p => t.layout p true)
          ∘ (fun digits => assignDigits t (vdims t) digits)) digits
          = (Except.ok ∘ radixRev (esOf t)) digits := by
      intro digits hdig
      exact layout_assign t digits hnd hnn hub hprod hdig
    rw [List.map_congr_left hcong, ← List.map_map, enumRev_map_radixRev,
      esOf_prod_eq t hnn]
  have hlength : (t.visitAllPoints).length = t.product.toNat := by
    have h := congrArg List.length hmap
    simpa using h
  refine ⟨hmap, hlength, ?_, ?_, ?_⟩
  · rw [hlength]
    exact Int.toNat_of_nonneg hprodnn
  · have hnodup : ((t.visitAllPoints).map (fun p => t.layout p true)).Nodup := by
      rw [hmap]
      exact List.Nodup.map (fun a b h => Except.ok.inj h)
        (List.nodup_range t.product.toNat)
    exact List.Nodup.of_map _ hnodup
  · intro hq
    unfold Tuple.visitAllPoints
    rw [hq]
    rfl

/-- Witness for C2 at extents {x:2, y:3}, firstInner = true. -/
theorem c2_visitAllPoints_witness :
    c2t.dimNames.Nodup
  ∧ (∀ p ∈ c2t.q, 0 ≤ p.2)
  ∧ (∀ p ∈ c2t.q, p.2 < 2 ^ 64)
  ∧ c2t.product < 2 ^ 64
  ∧ ((c2t.visitAllPoints).map (fun p => c2t.layout p true)
        = (List.range c2t.product.toNat).map Except.ok
    ∧ (c2t.visitAllPoints).length = c2t.product.toNat
    ∧ ((c2t.visitAllPoints).length : Int) = c2t.product
    ∧ c2t.visitAllPoints.Nodup
    ∧ (c2t.q = [] → c2t.visitAllPoints = [c2t])) :=
  ⟨by decide, by decide, by decide, by decide,
   c2_visitAllPoints c2t (by decide) (by decide) (by decide) (by decide)⟩

/-! ### C4: layout contract checks -/

theorem lookupL_map_payload (q : List (String × Int)) (g : String → Int) (d : String) :
    lookupL (q.map (fun p => (p.1, g p.1))) d
      = (lookupL q d).map (fun _ => g d) := by
  induction q with
  | nil => rfl
  | cons p rest ih =>
    rw [List.map_cons]
    by_cases hp : p.1 = d
    · rw [show d = p.1 from hp.symm]
      rw [show lookupL ((p.1, g p.1) :: rest.map (fun p => (p.1, g p.1))) p.1
          = some (g p.1) from lookupL_cons_self,
        lookupL_cons_self]
      rfl
    · rw [show lookupL ((p.1, g p.1) :: rest.map (fun p => (p.1, g p.1))) d
          = lookupL (rest.map (fun p => (p.1, g p.1))) d from lookupL_cons_ne hp,
        lookupL_cons_ne hp, ih]

theorem layoutLoop_not_ok (offsets : Tuple) (prodSz : Nat) :
    ∀ (l : List (String × Int)),
      (∃ p ∈ l, ¬ ((match offsets.lookup p.1 with
          | some ov => toSizeT ov
          | none => 0) < toSizeT p.2)) →
      ∀ idx prevSize, (layoutLoop offsets prodSz l idx prevSize).isOk = false := by
  intro l
  induction l with
  | nil =>
    intro hbad
    rcases hbad with ⟨p, hp, _⟩
    simp at hp
  | cons hd rest ih =>
    intro hbad idx prev
    obtain ⟨dim, v⟩ := hd
    rcases hbad with ⟨b, hb, hbv⟩
    simp only [layoutLoop]
    rcases List.mem_cons.mp hb with h1 | h2
    · rw [h1] at hbv
      rw [if_neg hbv]
      rfl
    · split_ifs <;> first | rfl | exact ih ⟨b, h2, hbv⟩ _ _

theorem toSizeT_out_of_range {v ov : Int} (hv0 : 0 ≤ v) (hv : v < 2 ^ 63)
    (hov1 : -(2 ^ 63) ≤ ov) (hov2 : ov < 2 ^ 63)
    (hout : ov < 0 ∨ v ≤ ov) :
    ¬ (toSizeT ov < toSizeT v) := by
  unfold toSizeT
  omega

theorem layoutLoop_fill (t o : Tuple) (prodSz : Nat) :
    ∀ (l : List (String × Int)), (∀ p ∈ l, p.1 ∈ t.dimNames) →
      ∀ idx prevSize,
        layoutLoop o prodSz l idx prevSize
          = layoutLoop (fillOffsets t o) prodSz l idx prevSize := by
  intro l
  induction l with
  | nil => intro _ idx prev; rfl
  | cons hd rest ih =>
    intro hin idx prev
    obtain ⟨dim, v⟩ := hd
    have hmem : dim ∈ t.dimNames := hin (dim, v) (List.mem_cons_self (dim, v) rest)
    obtain ⟨w, hw⟩ := Option.isSome_iff_exists.mp (lookup_isSome_of_mem hmem)
    have hfill : (fillOffsets t o).lookup dim = some ((o.lookup dim).getD 0) := by
      show lookupL (t.q.map (fun p => (p.1, (o.lookup p.1).getD 0))) dim = _
      rw [lookupL_map_payload t.q (fun d => (o.lookup d).getD 0) dim,
        show lookupL t.q dim = some w from hw]
      rfl
    have hoff : (match (fillOffsets t o).lookup dim with
          | some ov => toSizeT ov
          | none => 0)
        = (match o.lookup dim with
          | some ov => toSizeT ov
          | none => 0) := by
      rw [hfill]
      cases ho : o.lookup dim with
      | some ov => rfl
      | none =>
        show toSizeT 0 = 0
        rfl
    have hinr : ∀ p ∈ rest, p.1 ∈ t.dimNames :=
      fun p hp => hin p (List.mem_cons_of_mem (dim, v) hp)
    simp only [layoutLoop]
    rw [hoff]
    split_ifs <;> first | rfl | exact ih hinr _ _

/-- C4: `layout(offsets, strict)` signals a fatal contract violation when
strict and the offsets' dimension set differs from this's, and whenever a
supplied offset lies outside [0, extent) for its dimension (never clamped
into range); when strict is false, dimensions missing from offsets
contribute offset 0 and dimensions present only in offsets are ignored. -/
theorem c4_layout_contract (t o : Tuple) (strictRhs : Bool)
    (dim : String) (v ov : Int) :
    (t.areDimsSame o = false → t.layout o true = .error "dims mismatch")
  ∧ ((dim, v) ∈ t.q → o.lookup dim = some ov →
      (ov < 0 ∨ v ≤ ov) →
      -(2 ^ 63) ≤ ov → ov < 2 ^ 63 → 0 ≤ v → v < 2 ^ 63 →
      (t.layout o strictRhs).isOk = false)
  ∧ t.layout o false = t.layout (fillOffsets t o) false := by
  refine ⟨?_, ?_, ?_⟩
  · intro h
    unfold Tuple.layout
    rw [if_pos (by rw [h]; rfl)]
  · intro hmem hlook hout hov1 hov2 hv0 hv
    have hbad : ∃ p ∈ (if t.firstInner then t.q else t.q.reverse),
        ¬ ((match o.lookup p.1 with
          | some ovv => toSizeT ovv
          | none => 0) < toSizeT p.2) := by
      refine ⟨(dim, v), ?_, ?_⟩
      · by_cases hf : t.firstInner = true
        · rw [if_pos hf]; exact hmem
        · rw [if_neg hf]; exact List.mem_reverse.mpr hmem
      · show ¬ ((match o.lookup dim with
          | some ovv => toSizeT ovv
          | none => 0) < toSizeT v)
        rw [hlook]
        exact toSizeT_out_of_range hv0 hv hov1 hov2 hout
    unfold Tuple.layout
    by_cases hstrict : (strictRhs && !(t.areDimsSame o)) = true
    · rw [if_pos hstrict]
      rfl
    · rw [if_neg hstrict]
      exact layoutLoop_not_ok o (toSizeT t.product) _ hbad 0 1
  · unfold Tuple.layout
    rw [if_neg (show ¬ ((false && !(t.areDimsSame o)) = true) from by simp),
      if_neg (show ¬ ((false && !(t.areDimsSame (fillOffsets t o))) = true) from by simp)]
    apply layoutLoop_fill
    intro p hp
    have hpq : p ∈ t.q := by
      by_cases hf : t.firstInner = true
      · rw [if_pos hf] at hp; exact hp
      · rw [if_neg hf] at hp; exact List.mem_reverse.mp hp
    exact List.mem_map_of_mem Prod.fst hpq

/-- Witness for C4: a strict dimension mismatch, an out-of-range offset,
and the non-strict defaulting behavior, each at concrete tuples. -/
theorem c4_layout_contract_witness :
    c4t.layout c4o2 true = .error "dims mismatch"
  ∧ (c4t.layout c4o true).isOk = false
  ∧ c4t.layout c4o2 false = c4t.layout (fillOffsets c4t c4o2) false :=
  ⟨(c4_layout_contract c4t c4o2 true "x" 0 0).1 (by decide),
   (c4_layout_contract c4t c4o true "x" 4 4).2.1 (by decide) (by decide)
     (by decide) (by decide) (by decide) (by decide) (by decide),
   (c4_layout_contract c4t c4o2 false "x" 0 0).2.2⟩

end Yask
